import Mathlib

/-!
Verification development for the MBC-20 auto-mint bot (mint.js / shared.js).

The scheduler core of `mint.js` is embedded shallowly:

* timestamps are integers (milliseconds since the epoch); the wall clock read
  at the start of one bot's attempt is a single value `now` (the source reads
  the clock again a few statements later inside the same attempt; that
  sub-millisecond drift is abstracted away);
* the JSON bodies of platform responses are records of `Option` fields
  (`none` models an absent/`undefined`/`null` field); where the source tests a
  field with JavaScript truthiness (`||`, `?:`), a present numeric field equal
  to `0` is falsy and is modelled as such explicitly;
* the durable status store (`status.json`) is a total map from bot names to
  status records; `initBotStatus` of the source, which lazily inserts a
  default record, is modelled by making absent names map to the default
  record.
-/

set_option exponentiation.threshold 1100

namespace Mint

/-- Default per-bot cooldown of `mint.js`: `30 * 60 * 1000` ms. -/
def MINT_COOLDOWN_MS : Int := 30 * 60 * 1000

/-- Per-bot status record (`status.json` entry, fields as in `shared.js`
`initBotStatus` plus the fields `mint.js` adds dynamically). -/
structure BotStatus where
  claimed : Bool
  wallet_linked : Bool
  last_mint_attempt : Option Int
  last_post_attempt : Option Int
  last_post_result : Option String
  last_status_check : Option Int
  next_mint_at : Option Int
  post_ids : List Nat
  deriving Repr, DecidableEq

/-- The defaults `initBotStatus` writes for a bot never seen before. -/
def defaultBotStatus : BotStatus :=
  { claimed := false
    wallet_linked := false
    last_mint_attempt := none
    last_post_attempt := none
    last_post_result := none
    last_status_check := none
    next_mint_at := none
    post_ids := [] }

/-- `getTimeUntilMint` of `mint.js`: exact `next_mint_at` is authoritative;
otherwise fall back to `last_mint_attempt + cooldown`; otherwise 0. -/
def getTimeUntilMint (cooldown : Int) (bs : BotStatus) (now : Int) : Int :=
  match bs.next_mint_at with
  | some t => max 0 (t - now)
  | none =>
    match bs.last_mint_attempt with
    | none => 0
    | some l0 => max 0 (cooldown - (now - l0))

/-- Modelled from the spec: `timeUntilEligible = max(0, nextEligibleTime - now)`
when `nextEligibleTime` is set; otherwise `max(0, defaultCooldown - (now -
lastMintAttempt))`; if neither timestamp is set, eligible immediately. -/
def specTimeUntilEligible (cooldown : Int) (bs : BotStatus) (now : Int) : Int :=
  match bs.next_mint_at with
  | some t => max 0 (t - now)
  | none =>
    match bs.last_mint_attempt with
    | some l0 => max 0 (cooldown - (now - l0))
    | none => 0

/-- Fields of the create-post response body that `tryMintBot` inspects. -/
structure MintResp where
  statusCode : Int
  post_id : Option Nat
  verification_required : Bool
  /-- Outcome of the `verifyPost` sub-call when verification is required:
  `true` iff the verify response carried `success: true`. -/
  verify_success : Bool
  next_mint_at : Option Int
  retry_after_seconds : Option Int
  retry_after_minutes : Option Int
  deriving Repr, DecidableEq

/-- Environment of one bot attempt: the claim-status result (`none` when the
check failed) and the create-post response (`none` when `createPost` threw,
e.g. after exhausting network retries). -/
structure MintEnv where
  claimStatus : Option String
  mintResp : Option MintResp
  deriving Repr, DecidableEq

/-- The `(json?.retry_after_minutes ? json.retry_after_minutes * 60 : null) || 1800`
part of the 429 branch.  JavaScript truthiness: a present `0` falls through. -/
def retrySecondsFromMinutes (ram : Option Int) : Int :=
  match ram with
  | some m => if m ≠ 0 then m * 60 else 1800
  | none => 1800

/-- The full retry-delay computation of the 429 branch:
`json?.retry_after_seconds || (json?.retry_after_minutes ? ... : null) || 1800`. -/
def retrySecondsOf (ras ram : Option Int) : Int :=
  match ras with
  | some s => if s ≠ 0 then s else retrySecondsFromMinutes ram
  | none => retrySecondsFromMinutes ram

/-- `Math.ceil(retrySeconds / 60)` (used only in the logged result string). -/
def ceilDiv60 (s : Int) : Int := -((-s).ediv 60)

/-- The `mint_fail: <code>` result string. -/
def mintFailMsg (code : Int) : String := "mint_fail: " ++ toString code

/-- The `mint_rate_limit: <min>min` result string. -/
def mintRateLimitMsg (retrySeconds : Int) : String :=
  "mint_rate_limit: " ++ toString (ceilDiv60 retrySeconds) ++ "min"

/-- One bot's attempt (`tryMintBot` of `mint.js`) as a pure transition on the
bot's status record, driven by the response environment `env`. -/
def tryMintBot (cooldown now : Int) (env : MintEnv) (bs : BotStatus) : BotStatus :=
  if getTimeUntilMint cooldown bs now > 0 then bs
  else
    let bs0 := { bs with last_status_check := some now }
    match env.claimStatus with
    | none => bs0
    | some st =>
      let bs1 := { bs0 with claimed := st == "claimed" }
      if st ≠ "claimed" then bs1
      else
        match env.mintResp with
        | none => bs1
        | some r =>
          if 200 ≤ r.statusCode ∧ r.statusCode < 300 then
            let verified := r.verification_required && r.verify_success
            let bs2 :=
              match r.post_id with
              | some pid =>
                if verified then { bs1 with post_ids := bs1.post_ids ++ [pid] } else bs1
              | none => bs1
            { bs2 with
              last_mint_attempt := some now
              next_mint_at := some ((r.next_mint_at).getD (now + cooldown))
              last_post_result := some "mint_ok" }
          else if r.statusCode = 429 then
            let rs := retrySecondsOf r.retry_after_seconds r.retry_after_minutes
            { bs1 with
              last_post_result := some (mintRateLimitMsg rs)
              last_mint_attempt := some now
              next_mint_at := some (now + rs * 1000) }
          else
            { bs1 with last_post_result := some (mintFailMsg r.statusCode) }

/-- The network calls one attempt performs, in order. -/
inductive MintAction where
  | checkStatus
  | createPost
  | verify
  deriving Repr, DecidableEq

/-- Trace of the network calls `tryMintBot` issues in the environment `env`. -/
def tryMintBotActions (cooldown now : Int) (env : MintEnv) (bs : BotStatus) :
    List MintAction :=
  if getTimeUntilMint cooldown bs now > 0 then []
  else
    MintAction.checkStatus ::
      match env.claimStatus with
      | none => []
      | some st =>
        if st ≠ "claimed" then []
        else
          MintAction.createPost ::
            match env.mintResp with
            | none => []
            | some r =>
              if 200 ≤ r.statusCode ∧ r.statusCode < 300 ∧ r.verification_required then
                [MintAction.verify]
              else []

/-- A bot account loaded from `accs.txt`. -/
structure Bot where
  name : String
  apiKey : String
  deriving Repr, DecidableEq

/-- The durable status store keyed by bot name (absent names read as the
default record, reflecting `initBotStatus`). -/
def Store : Type := String → BotStatus

/-- `checkLoop`'s partition: the bots whose remaining time is 0 this tick. -/
def readyBots (cooldown now : Int) (bots : List Bot) (st : Store) : List Bot :=
  bots.filter (fun b => decide (getTimeUntilMint cooldown (st b.name) now = 0))

/-- One iteration of the per-bot loop body: run the attempt and write the
result back under the bot's name. -/
def stepBot (cooldown now : Int) (env : String → MintEnv) (st : Store) (b : Bot) :
    Store :=
  fun n => if n = b.name then tryMintBot cooldown now (env b.name) (st b.name) else st n

/-- Snapshots of the store in the order they are flushed to `status.json`:
`saveStatus(status)` runs after each bot of the ready list. -/
def processReadySaves (cooldown now : Int) (env : String → MintEnv) :
    Store → List Bot → List Store
  | _, [] => []
  | st, b :: rest =>
    let st' := stepBot cooldown now env st b
    st' :: processReadySaves cooldown now env st' rest

/-! ### Readiness (C1) -/

/-- C1: the computed time-until-eligible equals the spec's formula
(`next_mint_at` authoritative, `last_mint_attempt` fallback, else 0), and the
per-tick partition puts a bot in the Ready set exactly when this value is 0;
hence a bot with `next_mint_at` in the future is never selected Ready, and
once `now ≥ next_mint_at` it is selected. -/
theorem c1_readiness (cooldown now : Int) (bots : List Bot) (st : Store) (b : Bot)
    (hb : b ∈ bots) :
    getTimeUntilMint cooldown (st b.name) now = specTimeUntilEligible cooldown (st b.name) now
    ∧ (b ∈ readyBots cooldown now bots st ↔
        getTimeUntilMint cooldown (st b.name) now = 0)
    ∧ ∀ t, (st b.name).next_mint_at = some t →
        (now < t → b ∉ readyBots cooldown now bots st)
          ∧ (t ≤ now → b ∈ readyBots cooldown now bots st) := by
  have hmem : b ∈ readyBots cooldown now bots st ↔
      getTimeUntilMint cooldown (st b.name) now = 0 := by
    simp [readyBots, List.mem_filter, hb]
  refine ⟨?_, hmem, ?_⟩
  · cases h : (st b.name).next_mint_at <;> cases h2 : (st b.name).last_mint_attempt <;>
      simp [getTimeUntilMint, specTimeUntilEligible, h, h2]
  · intro t ht
    have hg : getTimeUntilMint cooldown (st b.name) now = max 0 (t - now) := by
      simp [getTimeUntilMint, ht]
    constructor
    · intro hlt hin
      have := hmem.mp hin
      rw [hg] at this
      omega
    · intro hle
      refine hmem.mpr ?_
      rw [hg]
      omega

/-- C1 witness: a concrete bot with `next_mint_at = 50` is not Ready at
`now = 49` and is Ready at `now = 50`. -/
theorem c1_readiness_witness :
    let b : Bot := ⟨"alpha", "key"⟩
    let st : Store := fun _ => { defaultBotStatus with next_mint_at := some 50 }
    (50 < (50 : Int) → b ∉ readyBots MINT_COOLDOWN_MS 50 [b] st)
      ∧ ((50 : Int) ≤ 50 → b ∈ readyBots MINT_COOLDOWN_MS 50 [b] st) :=
  (c1_readiness MINT_COOLDOWN_MS 50 [⟨"alpha", "key"⟩]
      (fun _ => { defaultBotStatus with next_mint_at := some 50 })
      ⟨"alpha", "key"⟩ (by simp)).2.2 50 rfl

/-! ### Rate-limit rescheduling (C2) -/

/-- A 429 create-post response whose body carries `retry_after_seconds: 0`. -/
def envRateLimitZero : MintEnv :=
  { claimStatus := some "claimed"
    mintResp := some
      { statusCode := 429
        post_id := none
        verification_required := false
        verify_success := false
        next_mint_at := none
        retry_after_seconds := some 0
        retry_after_minutes := none } }

/-- C2 counterexample: with `retry_after_seconds = 0` present in the 429 body,
the claim's delay is `0` (so `next_mint_at = now + 0`), but the code's `||`
chain treats the present `0` as absent and falls back to 1800 s: at `now = 0`
the stored `next_mint_at` is `1800000` ms, not `0`. -/
theorem c2_rate_limit_counterexample :
    (tryMintBot MINT_COOLDOWN_MS 0 envRateLimitZero defaultBotStatus).next_mint_at
        = some 1800000
    ∧ (1800000 : Int) ≠ 0 + 0 * 1000 := by
  exact ⟨rfl, by decide⟩

/-- C2 (amended): on a 429 the scheduler sets `next_mint_at = now + delay·1000`
where `delay` is `retry_after_seconds` when present and non-zero, else
`retry_after_minutes · 60` when present and non-zero, else 1800 s; in
particular `retry_after_seconds = 90` yields `now + 90 s` regardless of the
configured default cooldown. -/
theorem c2_rate_limit_override (cooldown now : Int) (bs : BotStatus) (env : MintEnv)
    (r : MintResp)
    (hready : getTimeUntilMint cooldown bs now = 0)
    (hclaim : env.claimStatus = some "claimed")
    (hresp : env.mintResp = some r)
    (hcode : r.statusCode = 429) :
    (tryMintBot cooldown now env bs).next_mint_at
        = some (now + retrySecondsOf r.retry_after_seconds r.retry_after_minutes * 1000)
    ∧ (∀ s : Int, s ≠ 0 → r.retry_after_seconds = some s →
        retrySecondsOf r.retry_after_seconds r.retry_after_minutes = s)
    ∧ ((r.retry_after_seconds = none ∨ r.retry_after_seconds = some 0) →
        ∀ m : Int, m ≠ 0 → r.retry_after_minutes = some m →
          retrySecondsOf r.retry_after_seconds r.retry_after_minutes = m * 60)
    ∧ ((r.retry_after_seconds = none ∨ r.retry_after_seconds = some 0) →
        (r.retry_after_minutes = none ∨ r.retry_after_minutes = some 0) →
          retrySecondsOf r.retry_after_seconds r.retry_after_minutes = 1800)
    ∧ (r.retry_after_seconds = some 90 →
        (tryMintBot cooldown now env bs).next_mint_at = some (now + 90 * 1000)) := by
  have hnot2xx : ¬(200 ≤ r.statusCode ∧ r.statusCode < 300) := by omega
  have hmain : (tryMintBot cooldown now env bs).next_mint_at
      = some (now + retrySecondsOf r.retry_after_seconds r.retry_after_minutes * 1000) := by
    simp [tryMintBot, hready, hclaim, hresp, hnot2xx, hcode]
  refine ⟨hmain, ?_, ?_, ?_, ?_⟩
  · intro s hs hras
    simp [retrySecondsOf, hras, hs]
  · intro hras m hm hram
    rcases hras with h | h <;> simp [retrySecondsOf, retrySecondsFromMinutes, h, hram, hm]
  · intro hras hram
    rcases hras with h | h <;> rcases hram with h2 | h2 <;>
      simp [retrySecondsOf, retrySecondsFromMinutes, h, h2]
  · intro hras
    rw [hmain, hras]
    norm_num [retrySecondsOf]

/-- A 429 create-post response with `retry_after_seconds: 90`. -/
def envRateLimit90 : MintEnv :=
  { claimStatus := some "claimed"
    mintResp := some
      { statusCode := 429
        post_id := none
        verification_required := false
        verify_success := false
        next_mint_at := none
        retry_after_seconds := some 90
        retry_after_minutes := none } }

/-- C2 witness: at `now = 1000` with an eccentric default cooldown of
12345 ms, a 429 with `retry_after_seconds = 90` reschedules to
`1000 + 90000`. -/
theorem c2_rate_limit_witness :
    (tryMintBot 12345 1000 envRateLimit90 defaultBotStatus).next_mint_at
      = some (1000 + 90 * 1000) :=
  (c2_rate_limit_override 12345 1000 defaultBotStatus envRateLimit90
      (envRateLimit90.mintResp.get (by decide)) rfl rfl rfl rfl).2.2.2.2 rfl

/-! ### Success rescheduling (C3) -/

/-- C3: a 2xx create-post response records `last_mint_attempt = now` and sets
`next_mint_at` to the server hint when present, else `now + cooldown`; with
the default cooldown of 1800000 ms and no hint, `next_mint_at = now + 1800000`. -/
theorem c3_success_reschedule (cooldown now : Int) (bs : BotStatus) (env : MintEnv)
    (r : MintResp)
    (hready : getTimeUntilMint cooldown bs now = 0)
    (hclaim : env.claimStatus = some "claimed")
    (hresp : env.mintResp = some r)
    (h2xx : 200 ≤ r.statusCode ∧ r.statusCode < 300) :
    (tryMintBot cooldown now env bs).last_mint_attempt = some now
    ∧ (tryMintBot cooldown now env bs).last_post_result = some "mint_ok"
    ∧ (r.next_mint_at = none →
        (tryMintBot cooldown now env bs).next_mint_at = some (now + cooldown))
    ∧ (∀ h : Int, r.next_mint_at = some h →
        (tryMintBot cooldown now env bs).next_mint_at = some h)
    ∧ (cooldown = 1800000 → r.next_mint_at = none →
        (tryMintBot cooldown now env bs).next_mint_at = some (now + 1800000)) := by
  refine ⟨?_, ?_, ?_, ?_, ?_⟩ <;>
    (try intro h1) <;> (try intro h2) <;>
    simp only [tryMintBot, hready, hclaim, hresp, h2xx] <;>
    cases hp : r.post_id <;>
      cases hv : (r.verification_required && r.verify_success) <;>
      simp_all [hp, hv]

/-- A 2xx create-post response with no `next_mint_at` hint. -/
def envSuccessNoHint : MintEnv :=
  { claimStatus := some "claimed"
    mintResp := some
      { statusCode := 201
        post_id := some 7
        verification_required := false
        verify_success := false
        next_mint_at := none
        retry_after_seconds := none
        retry_after_minutes := none } }

/-- C3 witness: a 201 with no hint at `now = 5000` and cooldown 1800000
reschedules to `5000 + 1800000` and stamps the attempt. -/
theorem c3_success_reschedule_witness :
    (tryMintBot 1800000 5000 envSuccessNoHint defaultBotStatus).last_mint_attempt = some 5000
    ∧ (tryMintBot 1800000 5000 envSuccessNoHint defaultBotStatus).next_mint_at
        = some (5000 + 1800000) := by
  have h := c3_success_reschedule 1800000 5000 defaultBotStatus envSuccessNoHint
    (envSuccessNoHint.mintResp.get (by decide)) rfl rfl rfl (by decide)
  exact ⟨h.1, h.2.2.2.2 rfl rfl⟩

/-! ### Failure branch leaves timing state alone (C4) -/

/-- C4: a non-2xx, non-429 create-post response records `mint_fail: <code>` in
`last_post_result` and leaves `last_mint_attempt` and `next_mint_at`
unchanged, so the time-until-eligible computation is unchanged at every
instant and the bot is retried at the next readiness check. -/
theorem c4_failure_no_cooldown (cooldown now : Int) (bs : BotStatus) (env : MintEnv)
    (r : MintResp)
    (hready : getTimeUntilMint cooldown bs now = 0)
    (hclaim : env.claimStatus = some "claimed")
    (hresp : env.mintResp = some r)
    (hnot2xx : r.statusCode < 200 ∨ 300 ≤ r.statusCode)
    (hnot429 : r.statusCode ≠ 429) :
    (tryMintBot cooldown now env bs).last_post_result = some (mintFailMsg r.statusCode)
    ∧ (tryMintBot cooldown now env bs).last_mint_attempt = bs.last_mint_attempt
    ∧ (tryMintBot cooldown now env bs).next_mint_at = bs.next_mint_at
    ∧ ∀ now' : Int, getTimeUntilMint cooldown (tryMintBot cooldown now env bs) now'
        = getTimeUntilMint cooldown bs now' := by
  have h1 : ¬(200 ≤ r.statusCode ∧ r.statusCode < 300) := by omega
  have hres : tryMintBot cooldown now env bs
      = { bs with
          last_status_check := some now
          claimed := true
          last_post_result := some (mintFailMsg r.statusCode) } := by
    simp [tryMintBot, hready, hclaim, hresp, h1, hnot429]
  rw [hres]
  refine ⟨rfl, rfl, rfl, fun now' => ?_⟩
  simp [getTimeUntilMint]

/-- A 500 create-post response. -/
def envServerError : MintEnv :=
  { claimStatus := some "claimed"
    mintResp := some
      { statusCode := 500
        post_id := none
        verification_required := false
        verify_success := false
        next_mint_at := none
        retry_after_seconds := none
        retry_after_minutes := none } }

/-- C4 witness: after a 500 at `now = 10`, a previously-ready bot keeps
`last_mint_attempt = none` and `next_mint_at = none` and records the code. -/
theorem c4_failure_no_cooldown_witness :
    (tryMintBot MINT_COOLDOWN_MS 10 envServerError defaultBotStatus).last_post_result
        = some (mintFailMsg 500)
    ∧ (tryMintBot MINT_COOLDOWN_MS 10 envServerError defaultBotStatus).next_mint_at
        = defaultBotStatus.next_mint_at := by
  have h := c4_failure_no_cooldown MINT_COOLDOWN_MS 10 defaultBotStatus envServerError
    (envServerError.mintResp.get (by decide)) rfl rfl rfl (by decide) (by decide)
  exact ⟨h.1, h.2.2.1⟩

/-! ### Unclaimed bots (C5) -/

/-- A claim-status check that reports `unclaimed`. -/
def envUnclaimed : MintEnv :=
  { claimStatus := some "unclaimed"
    mintResp := none }

/-- A previously-claimed bot record (the platform can report a bot as claimed
on one tick and not on a later one; `claimed` is recomputed on every check). -/
def bsPreviouslyClaimed : BotStatus := { defaultBotStatus with claimed := true }

/-- C5 counterexample: for a bot whose stored record has `claimed = true`, a
status check returning "unclaimed" changes the `claimed` field to `false` in
addition to `last_status_check`, so the record is not "unchanged except for
lastStatusCheck" as claimed. -/
theorem c5_unclaimed_counterexample :
    (tryMintBot MINT_COOLDOWN_MS 0 envUnclaimed bsPreviouslyClaimed).claimed = false
    ∧ bsPreviouslyClaimed.claimed = true
    ∧ (tryMintBot MINT_COOLDOWN_MS 0 envUnclaimed bsPreviouslyClaimed).claimed
        ≠ bsPreviouslyClaimed.claimed := by
  exact ⟨rfl, rfl, by decide⟩

/-- C5 (amended): when the claim-status check returns a value other than
"claimed", no post is attempted during the tick (the action trace stops at
the status check), the stored record is unchanged except for
`last_status_check` and the recomputed `claimed` flag (set to `false`), and
the bot's time-until-eligible is unchanged, so it remains Ready next tick. -/
theorem c5_unclaimed_no_post (cooldown now : Int) (bs : BotStatus) (env : MintEnv)
    (s : String)
    (hready : getTimeUntilMint cooldown bs now = 0)
    (hclaim : env.claimStatus = some s)
    (hne : s ≠ "claimed") :
    tryMintBot cooldown now env bs
        = { bs with last_status_check := some now, claimed := false }
    ∧ tryMintBotActions cooldown now env bs = [MintAction.checkStatus]
    ∧ MintAction.createPost ∉ tryMintBotActions cooldown now env bs
    ∧ ∀ now' : Int, getTimeUntilMint cooldown (tryMintBot cooldown now env bs) now'
        = getTimeUntilMint cooldown bs now' := by
  have hres : tryMintBot cooldown now env bs
      = { bs with last_status_check := some now, claimed := false } := by
    simp [tryMintBot, hready, hclaim, hne]
  have hact : tryMintBotActions cooldown now env bs = [MintAction.checkStatus] := by
    simp [tryMintBotActions, hready, hclaim, hne]
  refine ⟨hres, hact, ?_, fun now' => ?_⟩
  · rw [hact]
    simp
  · rw [hres]
    simp [getTimeUntilMint]

/-- C5 witness: concrete "unclaimed" tick at `now = 0` on a previously-claimed
ready bot. -/
theorem c5_unclaimed_no_post_witness :
    tryMintBot MINT_COOLDOWN_MS 0 envUnclaimed bsPreviouslyClaimed
        = { bsPreviouslyClaimed with last_status_check := some 0, claimed := false }
    ∧ tryMintBotActions MINT_COOLDOWN_MS 0 envUnclaimed bsPreviouslyClaimed
        = [MintAction.checkStatus] := by
  have h := c5_unclaimed_no_post MINT_COOLDOWN_MS 0 bsPreviouslyClaimed envUnclaimed
    "unclaimed" rfl rfl (by decide)
  exact ⟨h.1, h.2.1⟩

/-! ### Per-bot persistence and crash safety (C6) -/

theorem stepBot_apply_ne (cooldown now : Int) (env : String → MintEnv) (st : Store)
    (b : Bot) (n : String) (h : n ≠ b.name) :
    stepBot cooldown now env st b n = st n := by
  simp [stepBot, h]

theorem foldl_stepBot_not_mem (cooldown now : Int) (env : String → MintEnv) :
    ∀ (bs : List Bot) (st : Store) (n : String), n ∉ bs.map Bot.name →
      List.foldl (stepBot cooldown now env) st bs n = st n := by
  intro bs
  induction bs with
  | nil => intro st n _; rfl
  | cons b rest ih =>
    intro st n hn
    simp only [List.map_cons, List.mem_cons, not_or] at hn
    rw [List.foldl_cons, ih _ _ hn.2, stepBot_apply_ne _ _ _ _ _ _ hn.1]

theorem foldl_stepBot_mem (cooldown now : Int) (env : String → MintEnv) :
    ∀ (bs : List Bot) (st : Store) (b : Bot), (bs.map Bot.name).Nodup → b ∈ bs →
      List.foldl (stepBot cooldown now env) st bs b.name
        = tryMintBot cooldown now (env b.name) (st b.name) := by
  intro bs
  induction bs with
  | nil => intro st b _ h; cases h
  | cons b' rest ih =>
    intro st b hnodup hb
    simp only [List.map_cons, List.nodup_cons] at hnodup
    rw [List.foldl_cons]
    rcases List.mem_cons.mp hb with rfl | hbr
    · rw [foldl_stepBot_not_mem _ _ _ _ _ _ hnodup.1]
      simp [stepBot]
    · have hne : b.name ≠ b'.name := by
        intro he
        exact hnodup.1 (he ▸ List.mem_map_of_mem Bot.name hbr)
      rw [ih _ _ hnodup.2 hbr, stepBot_apply_ne _ _ _ _ _ _ hne]

theorem processReadySaves_get (cooldown now : Int) (env : String → MintEnv) :
    ∀ (bs : List Bot) (st : Store) (i : Nat), i < bs.length →
      (processReadySaves cooldown now env st bs).get? i
        = some (List.foldl (stepBot cooldown now env) st (bs.take (i + 1))) := by
  intro bs
  induction bs with
  | nil => intro st i h; simp at h
  | cons b rest ih =>
    intro st i h
    cases i with
    | zero => simp [processReadySaves]
    | succ j =>
      have hj : j < rest.length := by simpa using h
      simpa [processReadySaves] using ih (stepBot cooldown now env st b) j hj

/-- C6: in each tick, the store is flushed after each ready bot's attempt and
before the next begins (the i-th persisted snapshot is exactly the store
after processing bots 1..i+1); consequently, stopping after bot `k` of `n`
leaves each of the first `k` bots' persisted records updated by its own
attempt and every other name (in particular bots `k+1..n`) unchanged. -/
theorem c6_crash_safety (cooldown now : Int) (env : String → MintEnv) (st0 : Store)
    (bots : List Bot) (k : Nat)
    (hnodup : (bots.map Bot.name).Nodup) :
    (∀ i, i < bots.length →
      (processReadySaves cooldown now env st0 bots).get? i
        = some (List.foldl (stepBot cooldown now env) st0 (bots.take (i + 1))))
    ∧ (∀ b ∈ bots.take k,
        List.foldl (stepBot cooldown now env) st0 (bots.take k) b.name
          = tryMintBot cooldown now (env b.name) (st0 b.name))
    ∧ (∀ b ∈ bots.drop k,
        List.foldl (stepBot cooldown now env) st0 (bots.take k) b.name = st0 b.name) := by
  have htknodup : ((bots.take k).map Bot.name).Nodup := by
    refine List.Nodup.sublist ?_ hnodup
    exact List.Sublist.map Bot.name (List.take_sublist k bots)
  refine ⟨fun i hi => processReadySaves_get _ _ _ _ _ _ hi, ?_, ?_⟩
  · intro b hb
    exact foldl_stepBot_mem _ _ _ _ _ _ htknodup hb
  · intro b hb
    refine foldl_stepBot_not_mem _ _ _ _ _ _ ?_
    intro hmem
    have hsplit : (bots.take k).map Bot.name ++ (bots.drop k).map Bot.name
        = bots.map Bot.name := by
      rw [← List.map_append, List.take_append_drop]
    have hnd : ((bots.take k).map Bot.name ++ (bots.drop k).map Bot.name).Nodup := by
      rw [hsplit]; exact hnodup
    have hdis := (List.nodup_append.mp hnd).2.2
    exact hdis hmem (List.mem_map_of_mem Bot.name hb)

/-- C6 witness: two ready bots, crash after the first: the first bot's record
is updated in the persisted store, the second is untouched. -/
theorem c6_crash_safety_witness :
    (∀ b ∈ ([⟨"a", "k1"⟩, ⟨"b", "k2"⟩] : List Bot).take 1,
        List.foldl (stepBot MINT_COOLDOWN_MS 0 (fun _ => envSuccessNoHint))
            (fun _ => defaultBotStatus) (([⟨"a", "k1"⟩, ⟨"b", "k2"⟩] : List Bot).take 1) b.name
          = tryMintBot MINT_COOLDOWN_MS 0 envSuccessNoHint defaultBotStatus)
    ∧ (∀ b ∈ ([⟨"a", "k1"⟩, ⟨"b", "k2"⟩] : List Bot).drop 1,
        List.foldl (stepBot MINT_COOLDOWN_MS 0 (fun _ => envSuccessNoHint))
            (fun _ => defaultBotStatus) (([⟨"a", "k1"⟩, ⟨"b", "k2"⟩] : List Bot).take 1) b.name
          = defaultBotStatus) := by
  have h := c6_crash_safety MINT_COOLDOWN_MS 0 (fun _ => envSuccessNoHint)
    (fun _ => defaultBotStatus) ([⟨"a", "k1"⟩, ⟨"b", "k2"⟩] : List Bot) 1
    (by decide)
  exact ⟨h.2.1, h.2.2⟩

/-! ### The retry wrapper (C7)

`withRetry` of `shared.js` runs `fn(0), fn(1), ...` until one call returns
(success) or the retry bound is exhausted, sleeping `delay * (attempt + 1)`
between attempts after a thrown error and re-raising the last error at the
end.  The model returns, besides the result, the list of attempt indices
actually invoked and the list of waits performed (in order). -/

/-- The loop body of `withRetry`, parameterised by the current attempt index
and the number of retries still allowed after it. -/
def withRetryRun {ε α : Type} (fn : Nat → Except ε α) (delay : Int) :
    Nat → Nat → Except ε α × List Nat × List Int
  | attempt, 0 => (fn attempt, [attempt], [])
  | attempt, left + 1 =>
    match fn attempt with
    | .ok a => (.ok a, [attempt], [])
    | .error _ =>
      let r := withRetryRun fn delay (attempt + 1) left
      (r.1, attempt :: r.2.1, delay * ((attempt : Int) + 1) :: r.2.2)

/-- `withRetry(fn, {retries, delay})`: result, invoked attempt indices, waits. -/
def withRetry {ε α : Type} (fn : Nat → Except ε α) (retries : Nat) (delay : Int) :
    Except ε α × List Nat × List Int :=
  withRetryRun fn delay 0 retries

theorem withRetryRun_spec {A B : Type} (fn : Nat → Except A B) (delay : Int) :
    ∀ (left a : Nat),
      (withRetryRun fn delay a left).2.1
          = (List.range (withRetryRun fn delay a left).2.1.length).map (fun i => i + a)
      ∧ 1 ≤ (withRetryRun fn delay a left).2.1.length
      ∧ (withRetryRun fn delay a left).2.1.length ≤ left + 1
      ∧ (∀ i, i + 1 < (withRetryRun fn delay a left).2.1.length →
          ∃ e, fn (a + i) = .error e)
      ∧ (withRetryRun fn delay a left).1
          = fn (a + ((withRetryRun fn delay a left).2.1.length - 1))
      ∧ ((withRetryRun fn delay a left).2.1.length < left + 1 →
          ∃ v, (withRetryRun fn delay a left).1 = .ok v)
      ∧ (withRetryRun fn delay a left).2.2
          = (List.range ((withRetryRun fn delay a left).2.1.length - 1)).map
              (fun i : Nat => delay * ((a : Int) + (i : Int) + 1)) := by
  intro left
  induction left with
  | zero =>
    intro a
    refine ⟨by simp [withRetryRun, List.range_succ], by simp [withRetryRun],
      by simp [withRetryRun], ?_, by simp [withRetryRun], ?_, by simp [withRetryRun]⟩
    · intro i hi
      simp [withRetryRun] at hi
    · intro h
      simp [withRetryRun] at h
  | succ left ih =>
    intro a
    by_cases hok : ∃ v, fn a = .ok v
    · obtain ⟨v, hv⟩ := hok
      have hrun : withRetryRun fn delay a (left + 1) = (.ok v, [a], []) := by
        simp [withRetryRun, hv]
      rw [hrun]
      refine ⟨by simp [List.range_succ], by simp, by simp, ?_, by simp [hv], ?_, by simp⟩
      · intro i hi
        simp at hi
      · intro _
        exact ⟨v, rfl⟩
    · have herr : ∃ e, fn a = .error e := by
        cases h : fn a with
        | ok v => exact absurd ⟨v, h⟩ hok
        | error e => exact ⟨e, rfl⟩
      obtain ⟨e, he⟩ := herr
      have hrun : withRetryRun fn delay a (left + 1)
          = ((withRetryRun fn delay (a + 1) left).1,
             a :: (withRetryRun fn delay (a + 1) left).2.1,
             delay * ((a : Int) + 1) :: (withRetryRun fn delay (a + 1) left).2.2) := by
        simp [withRetryRun, he]
      obtain ⟨ih1, ih2, ih3, ih4, ih5, ih6, ih7⟩ := ih (a + 1)
      rw [hrun]
      have hlen : (a :: (withRetryRun fn delay (a + 1) left).2.1).length
          = (withRetryRun fn delay (a + 1) left).2.1.length + 1 := by simp
      refine ⟨?_, by simp, by simp only [hlen]; omega, ?_, ?_, ?_, ?_⟩
      · simp only [hlen, List.range_succ_eq_map, List.map_cons, Nat.zero_add]
        congr 1
        conv_lhs => rw [ih1]
        rw [List.map_map]
        apply List.map_congr_left
        intro x _
        simp only [Function.comp_apply, Nat.succ_eq_add_one]
        omega
      · intro i hi
        rw [hlen] at hi
        cases i with
        | zero => exact ⟨e, by simpa using he⟩
        | succ j =>
          obtain ⟨e2, he2⟩ := ih4 j (by omega)
          exact ⟨e2, by rw [show a + (j + 1) = a + 1 + j by omega]; exact he2⟩
      · simp only [hlen]
        rw [ih5]
        congr 1
        have h2 := ih2
        omega
      · intro hlt
        simp only [hlen] at hlt
        exact ih6 (by omega)
      · simp only [hlen]
        conv_lhs => rw [ih7]
        have h1 : (withRetryRun fn delay (a + 1) left).2.1.length + 1 - 1
            = ((withRetryRun fn delay (a + 1) left).2.1.length - 1) + 1 := by
          have h2 := ih2
          omega
        rw [h1, List.range_succ_eq_map, List.map_cons, List.map_map]
        simp only [List.cons.injEq]
        refine ⟨by push_cast; ring, ?_⟩
        apply List.map_congr_left
        intro x _
        simp only [Function.comp_apply, Nat.succ_eq_add_one]
        push_cast
        ring

/-- C7: `withRetry` invokes the attempt function at the zero-based indices
0, 1, ... in order; every attempt before the last one invoked threw an error;
the returned value is the result of the last invoked attempt (so the first
success is returned, and after exhausting all `retries + 1` attempts the last
error is re-raised); and the waits performed between attempts are
`delay * (attemptIndex + 1)` in order. -/
theorem c7_withRetry {A B : Type} (fn : Nat → Except A B) (retries : Nat) (delay : Int) :
    (withRetry fn retries delay).2.1
        = List.range (withRetry fn retries delay).2.1.length
    ∧ 1 ≤ (withRetry fn retries delay).2.1.length
    ∧ (withRetry fn retries delay).2.1.length ≤ retries + 1
    ∧ (∀ i, i + 1 < (withRetry fn retries delay).2.1.length → ∃ e, fn i = .error e)
    ∧ (withRetry fn retries delay).1
        = fn ((withRetry fn retries delay).2.1.length - 1)
    ∧ (∀ (k : Nat) (v : B), k ≤ retries → fn k = .ok v →
        (∀ j, j < k → ∃ e, fn j = .error e) → (withRetry fn retries delay).1 = .ok v)
    ∧ ((∀ i, i ≤ retries → ∃ e, fn i = .error e) →
        (withRetry fn retries delay).1 = fn retries)
    ∧ (withRetry fn retries delay).2.2
        = (List.range ((withRetry fn retries delay).2.1.length - 1)).map
            (fun i : Nat => delay * ((i : Int) + 1)) := by
  obtain ⟨h1, h2, h3, h4, h5, h6, h7⟩ := withRetryRun_spec fn delay retries 0
  have hdef : withRetry fn retries delay = withRetryRun fn delay 0 retries := rfl
  rw [hdef]
  have h1' : (withRetryRun fn delay 0 retries).2.1
      = List.range (withRetryRun fn delay 0 retries).2.1.length := by
    rw [h1]
    simp
  have h4' : ∀ i, i + 1 < (withRetryRun fn delay 0 retries).2.1.length →
      ∃ e, fn i = .error e := by
    intro i hi
    simpa using h4 i hi
  have h5' : (withRetryRun fn delay 0 retries).1
      = fn ((withRetryRun fn delay 0 retries).2.1.length - 1) := by
    rw [h5]
    congr 1
    omega
  refine ⟨h1', h2, h3, h4', h5', ?_, ?_, ?_⟩
  · intro k v hk hfk hprev
    have hLk : (withRetryRun fn delay 0 retries).2.1.length - 1 = k := by
      rcases Nat.lt_trichotomy ((withRetryRun fn delay 0 retries).2.1.length - 1) k
        with h | h | h
      · obtain ⟨e, he⟩ := hprev _ h
        have hfull : (withRetryRun fn delay 0 retries).2.1.length < retries + 1 := by
          omega
        obtain ⟨v2, hv2⟩ := h6 hfull
        rw [h5', he] at hv2
        cases hv2
      · exact h
      · obtain ⟨e, he⟩ := h4' k (by omega)
        rw [hfk] at he
        simp at he
    rw [h5', hLk, hfk]
  · intro hall
    rcases Nat.lt_or_ge (withRetryRun fn delay 0 retries).2.1.length (retries + 1)
      with hfull | hfull
    · obtain ⟨v2, hv2⟩ := h6 hfull
      obtain ⟨e, he⟩ := hall ((withRetryRun fn delay 0 retries).2.1.length - 1) (by omega)
      rw [h5', he] at hv2
      cases hv2
    · have hLe : (withRetryRun fn delay 0 retries).2.1.length = retries + 1 := by omega
      rw [h5', hLe]
      simp
  · rw [h7]
    apply List.map_congr_left
    intro x _
    push_cast
    ring


/-- A concrete attempt function: fails on attempts 0 and 1, succeeds on 2. -/
def fnFailTwice : Nat → Except String Nat :=
  fun i => if i < 2 then .error "boom" else .ok 42

/-- C7 witness: with `retries = 2`, `delay = 2000`, and a function failing on
attempts 0 and 1, the wrapper calls indices `[0, 1, 2]`, waits
`[2000, 4000]`, and returns the success of attempt 2. -/
theorem c7_withRetry_witness :
    (withRetry fnFailTwice 2 2000).2.1 = [0, 1, 2]
    ∧ (withRetry fnFailTwice 2 2000).2.2 = [2000, 4000]
    ∧ (withRetry fnFailTwice 2 2000).1 = .ok 42 := by
  have h := (c7_withRetry fnFailTwice 2 2000).2.2.2.2.2.1 2 42 (by decide) rfl
    (fun j hj => ⟨"boom", by interval_cases j <;> rfl⟩)
  exact ⟨by decide, by decide, h⟩

/-! ### Strings as codepoint lists

The challenge-solving helpers of `shared.js` operate on JavaScript strings
with ASCII-centric regular expressions.  Strings are embedded as lists of
Unicode codepoints (`List Nat`); the character classes below are the ASCII
classes of the source's regexes (`\d`, `\s`, `\w`, `[a-z]`, ...). -/

/-- `[a-z]`. -/
def isLowerC (c : Nat) : Bool := 97 ≤ c && c ≤ 122

/-- `[A-Z]`. -/
def isUpperC (c : Nat) : Bool := 65 ≤ c && c ≤ 90

/-- `\d` = `[0-9]`. -/
def isDigitC (c : Nat) : Bool := 48 ≤ c && c ≤ 57

/-- `[a-zA-Z0-9]`. -/
def isAlphaNumC (c : Nat) : Bool := isUpperC c || isLowerC c || isDigitC c

/-- `\s` (ASCII part: space, tab, LF, VT, FF, CR). -/
def isSpaceC (c : Nat) : Bool := c = 32 || c = 9 || c = 10 || c = 11 || c = 12 || c = 13

/-- The punctuation kept by `deobfuscate`: `.`, `,`, `?`, `!`. -/
def isKeepPunctC (c : Nat) : Bool := c = 46 || c = 44 || c = 63 || c = 33

/-- `\w` = `[a-zA-Z0-9_]` (the class defining `\b` word boundaries). -/
def isWordC (c : Nat) : Bool := isAlphaNumC c || c = 95

/-- `String.prototype.toLowerCase` on the ASCII letters. -/
def toLowerC (c : Nat) : Nat := if isUpperC c then c + 32 else c

/-- Codepoints of a Lean string (used to state concrete examples). -/
def codes (s : String) : List Nat := s.data.map Char.toNat

/-- `dropWhile \s` from the left (half of `String.prototype.trim`). -/
def trimLeft (l : List Nat) : List Nat := l.dropWhile (fun c => isSpaceC c)

/-- Drop trailing `\s` (the other half of `trim`). -/
def trimRight (l : List Nat) : List Nat :=
  (l.reverse.dropWhile (fun c => isSpaceC c)).reverse

/-- `String.prototype.trim`. -/
def trimJS (l : List Nat) : List Nat := trimRight (trimLeft l)

/-! ### Answer extraction (`parseAnswer` of `shared.js`, C8/C10)

`parseAnswer` tries, in order, the regexes `-?\d+\.\d{2}\b` (returning the
match verbatim), `-?\d+\.\d+` and `-?\d+` (formatting the parsed number with
`toFixed(2)`).  The searches below scan candidate start positions left to
right exactly as the regex engine does; the greedy `\d+` needs no
backtracking because a shorter digit run can never make the following literal
`.` (or the 2-digit group) match.

`parseFloat(...).toFixed(2)` is modelled by exact decimal arithmetic on the
matched digit string, including the branch structure of
`Number.prototype.toFixed`: fixed notation with 2 fractional digits below
magnitude `10^21`, and the `ToString(x)` fallback above it (exponential
notation, or `"Infinity"` once `parseFloat` overflowed).  The branch
thresholds are exact integer comparisons (see the threshold constants);
within the branches the printed digits are the exact decimal ones, which
abstracts from the shortest-round-trip digit recovery of `ToString` on
doubles that are not exactly representable and from the underflow of
sub-`2^-1075` literals to zero. -/

/-- Split a leading digit run: `(l.takeWhile \d, l.dropWhile \d)`. -/
def takeDigits (l : List Nat) : List Nat × List Nat :=
  (l.takeWhile (fun c => isDigitC c), l.dropWhile (fun c => isDigitC c))

/-- Match `-?\d+` anchored at the start of `l`; returns the sign, the digit
run, and the remainder. -/
def matchIntAt (l : List Nat) : Option (Bool × List Nat × List Nat) :=
  match l with
  | [] => none
  | c :: rest =>
    if c = 45 then
      let (ds, r) := takeDigits rest
      if ds.isEmpty then none else some (true, ds, r)
    else
      let (ds, r) := takeDigits (c :: rest)
      if ds.isEmpty then none else some (false, ds, r)

/-- `\b` after a digit fails exactly when the next character is a word
character. -/
def boundaryBlocked : List Nat → Bool
  | [] => false
  | d :: _ => isWordC d

/-- Match `-?\d+\.\d{2}\b` anchored at the start of `l`; returns the matched
substring. -/
def matchExactAt (l : List Nat) : Option (List Nat) :=
  match matchIntAt l with
  | none => none
  | some (neg, ds, r) =>
    match r with
    | p :: d1 :: d2 :: r2 =>
      if p = 46 && isDigitC d1 && isDigitC d2 && !boundaryBlocked r2 then
        some ((if neg then [45] else []) ++ ds ++ [p, d1, d2])
      else none
    | _ => none

/-- Leftmost match of `-?\d+\.\d{2}\b`. -/
def searchExact : List Nat → Option (List Nat)
  | [] => none
  | c :: rest =>
    match matchExactAt (c :: rest) with
    | some m => some m
    | none => searchExact rest

/-- Match `-?\d+\.\d+` anchored at the start of `l`; returns the sign, the
integer digits and the (greedy) fraction digits. -/
def matchDecimalAt (l : List Nat) : Option (Bool × List Nat × List Nat) :=
  match matchIntAt l with
  | none => none
  | some (neg, ds, r) =>
    match r with
    | p :: r2 =>
      if p = 46 then
        let (fs, _) := takeDigits r2
        if fs.isEmpty then none else some (neg, ds, fs)
      else none
    | [] => none

/-- Leftmost match of `-?\d+\.\d+`. -/
def searchDecimal : List Nat → Option (Bool × List Nat × List Nat)
  | [] => none
  | c :: rest =>
    match matchDecimalAt (c :: rest) with
    | some x => some x
    | none => searchDecimal rest

/-- Leftmost match of `-?\d+`. -/
def searchInteger : List Nat → Option (Bool × List Nat)
  | [] => none
  | c :: rest =>
    match matchIntAt (c :: rest) with
    | some (neg, ds, _) => some (neg, ds)
    | none => searchInteger rest

/-- Value of a digit run. -/
def digitsToNat (ds : List Nat) : Nat := ds.foldl (fun acc d => acc * 10 + (d - 48)) 0

/-- Decimal digits of `n`, most significant first (fuel-driven so that it is
structurally recursive; `natToDigits` supplies enough fuel). -/
def natToDigitsAux : Nat → Nat → List Nat
  | 0, _ => []
  | fuel + 1, n => if n < 10 then [48 + n] else natToDigitsAux fuel (n / 10) ++ [48 + n % 10]

/-- Decimal digits of `n`, most significant first. -/
def natToDigits (n : Nat) : List Nat := natToDigitsAux (n + 1) n

/-- Two-digit zero-padded rendering of `m < 100`. -/
def pad2 (m : Nat) : List Nat := [48 + m / 10, 48 + m % 10]

/-- Decimal values at least `10^21 - 2^16` are exactly the ones `parseFloat`
rounds to a double `≥ 10^21`, where `toFixed` abandons fixed notation for
`ToString`: `10^21 = 7629394531250000 * 2^17` is exactly representable with
an even mantissa, its predecessor double is `10^21 - 2^17`, and round half
to even sends the midpoint `10^21 - 2^16` up to `10^21`. -/
def TO_FIXED_EXP_THRESHOLD : Nat := 10 ^ 21 - 65536

/-- Decimal values at least `2^1024 - 2^970` — the midpoint above the
largest finite double `(2^53 - 1) * 2^971` — overflow `parseFloat` to
`Infinity`. -/
def PARSE_FLOAT_INFINITY_THRESHOLD : Nat := 2 ^ 1024 - 2 ^ 970

/-- Remove trailing `'0'` digits (the significand of an exponential-notation
rendering keeps only the significant digits). -/
def stripTrailingZeros (l : List Nat) : List Nat :=
  (l.reverse.dropWhile (fun c => c == 48)).reverse

/-- `ToString` of a (large) integer value `n` in exponential notation:
the significant digits — a dot after the first when more than one remains —
then `e+` and the decimal exponent.  `jsExpToString (10 ^ 21)` is `"1e+21"`.
The `[]` branch is unreachable for `n ≥ 1`. -/
def jsExpToString (n : Nat) : List Nat :=
  match stripTrailingZeros (natToDigits n) with
  | [] => 48 :: 101 :: 43 :: natToDigits ((natToDigits n).length - 1)
  | [d] => d :: 101 :: 43 :: natToDigits ((natToDigits n).length - 1)
  | d :: t => d :: 46 :: (t ++ 101 :: 43 :: natToDigits ((natToDigits n).length - 1))

/-- The sign `toFixed` prints: it tests `x < 0` on `parseFloat`'s value
before any rounding, so a minus sign with digits that are not all zero keeps
the sign (`parseFloat("-0.001").toFixed(2)` is `"-0.00"`), while `"-0"` and
`"-0.00"` parse to negative zero, `-0 < 0` is false, and the sign is
dropped. -/
def toFixedSign (neg : Bool) (intDs fracDs : List Nat) : Bool :=
  neg && !(digitsToNat intDs == 0 && digitsToNat fracDs == 0)

/-- The magnitude rounded to 2 fractional digits (ties away from zero),
scaled by 100, by exact decimal arithmetic on the digit strings. -/
def toFixedRounded (intDs fracDs : List Nat) : Nat :=
  digitsToNat intDs * 100 + digitsToNat ((fracDs ++ [48, 48]).take 2) +
    match fracDs.drop 2 with
    | [] => 0
    | d :: _ => if 53 ≤ d then 1 else 0

/-- The fixed-notation branch of `toFixed(2)`: sign, digits of the rounded
value's integer part, a dot, two zero-padded fraction digits. -/
def toFixed2Fixed (sign : Bool) (intDs fracDs : List Nat) : List Nat :=
  (if sign then [45] else []) ++ natToDigits (toFixedRounded intDs fracDs / 100) ++ [46]
    ++ pad2 (toFixedRounded intDs fracDs % 100)

/-- `parseFloat(sign ++ intDs ++ "." ++ fracDs).toFixed(2)`: `toFixed`
separates the sign, then returns `ToString(x)` for magnitudes at or above
the `10^21` fallback threshold — `"Infinity"` when `parseFloat` overflowed,
exponential notation otherwise — and fixed `\d+\.\d{2}` notation below it.
A fraction `< 1` never crosses the integer-valued thresholds, so comparing
the integer part's value suffices. -/
def toFixed2 (neg : Bool) (intDs fracDs : List Nat) : List Nat :=
  if PARSE_FLOAT_INFINITY_THRESHOLD ≤ digitsToNat intDs then
    (if toFixedSign neg intDs fracDs then [45] else []) ++ codes "Infinity"
  else if TO_FIXED_EXP_THRESHOLD ≤ digitsToNat intDs then
    (if toFixedSign neg intDs fracDs then [45] else []) ++ jsExpToString (digitsToNat intDs)
  else
    toFixed2Fixed (toFixedSign neg intDs fracDs) intDs fracDs

/-- `parseAnswer` of `shared.js`: trim, then try the three extraction regexes
in priority order. -/
def parseAnswer (raw : List Nat) : Option (List Nat) :=
  let trimmed := trimJS raw
  match searchExact trimmed with
  | some m => some m
  | none =>
    match searchDecimal trimmed with
    | some (neg, ints, fracs) => some (toFixed2 neg ints fracs)
    | none =>
      match searchInteger trimmed with
      | some (neg, ints) => some (toFixed2 neg ints [])
      | none => none

/-- Full-match test for `-?\d+\.\d{2}` (the answer format the platform is
sent). -/
def formatBody (l : List Nat) : Bool :=
  let td := takeDigits l
  !td.1.isEmpty &&
    match td.2 with
    | [p, d1, d2] => p = 46 && isDigitC d1 && isDigitC d2
    | _ => false

/-- `l` matches `-?\d+\.\d{2}` in full. -/
def isAnswerFormat (l : List Nat) : Bool :=
  match l with
  | [] => false
  | c :: rest => if c = 45 then formatBody rest else formatBody (c :: rest)

/-- Full-match test for `e\+\d+`, the exponent tail of an exponential
`ToString` rendering. -/
def isExpTail (l : List Nat) : Bool :=
  match l with
  | e :: p :: rest =>
    e = 101 && p = 43 && !(rest.takeWhile (fun c => isDigitC c)).isEmpty
      && (rest.dropWhile (fun c => isDigitC c)).isEmpty
  | _ => false

/-- Full-match test for `Infinity|\d(\.\d+)?e\+\d+`: the unsigned `ToString`
renderings `toFixed` can fall back to at magnitudes `≥ 10^21`. -/
def isHugeBody (l : List Nat) : Bool :=
  (l == codes "Infinity") ||
    match l with
    | [] => false
    | [_] => false
    | d :: e :: rest =>
      isDigitC d &&
        (if e = 46 then
          !(rest.takeWhile (fun c => isDigitC c)).isEmpty
            && isExpTail (rest.dropWhile (fun c => isDigitC c))
        else isExpTail (e :: rest))

/-- Full-match test for `-?(Infinity|\d(\.\d+)?e\+\d+)`, the shape of
`toFixed`'s `ToString` fallback output. -/
def isHugeFallbackForm (l : List Nat) : Bool :=
  match l with
  | [] => false
  | c :: rest => if c = 45 then isHugeBody rest else isHugeBody (c :: rest)

theorem takeDigits_append (ds : List Nat) (c : Nat) (r : List Nat)
    (hds : ∀ x ∈ ds, isDigitC x = true) (hc : isDigitC c = false) :
    takeDigits (ds ++ c :: r) = (ds, c :: r) := by
  induction ds with
  | nil =>
    simp only [takeDigits, List.nil_append]
    rw [List.takeWhile_cons_of_neg (by simp [hc]), List.dropWhile_cons_of_neg (by simp [hc])]
  | cons a as ih =>
    have ha : isDigitC a = true := hds a (by simp)
    have ih' := ih (fun x hx => hds x (by simp [hx]))
    simp only [takeDigits, List.cons_append] at ih' ⊢
    rw [List.takeWhile_cons_of_pos (by simp [ha]), List.dropWhile_cons_of_pos (by simp [ha])]
    simp only [Prod.mk.injEq] at ih' ⊢
    exact ⟨by rw [ih'.1], ih'.2⟩

theorem isAnswerFormat_shape (neg : Bool) (ds : List Nat) (d1 d2 : Nat)
    (hne : ds ≠ []) (hds : ∀ c ∈ ds, isDigitC c = true)
    (h1 : isDigitC d1 = true) (h2 : isDigitC d2 = true) :
    isAnswerFormat ((if neg then [45] else []) ++ ds ++ [46, d1, d2]) = true := by
  have hbody : formatBody (ds ++ [46, d1, d2]) = true := by
    have htd : takeDigits (ds ++ 46 :: [d1, d2]) = (ds, 46 :: [d1, d2]) :=
      takeDigits_append ds 46 [d1, d2] hds (by decide)
    simp only [formatBody, htd]
    simp [hne, h1, h2]
  cases neg with
  | true => simpa [isAnswerFormat] using hbody
  | false =>
    cases ds with
    | nil => exact absurd rfl hne
    | cons a as =>
      have ha : isDigitC a = true := hds a (by simp)
      have ha45 : ¬a = 45 := by
        intro h
        rw [h] at ha
        exact absurd ha (by decide)
      simpa [isAnswerFormat, ha45] using hbody

theorem natToDigitsAux_digits :
    ∀ (fuel n : Nat), ∀ c ∈ natToDigitsAux fuel n, isDigitC c = true := by
  intro fuel
  induction fuel with
  | zero =>
    intro n c hc
    simp [natToDigitsAux] at hc
  | succ f ih =>
    intro n c hc
    by_cases h : n < 10
    · simp only [natToDigitsAux, if_pos h, List.mem_singleton] at hc
      subst hc
      simp only [isDigitC, Bool.and_eq_true, decide_eq_true_eq]
      omega
    · simp only [natToDigitsAux, if_neg h, List.mem_append, List.mem_singleton] at hc
      rcases hc with hc | hc
      · exact ih _ _ hc
      · subst hc
        simp only [isDigitC, Bool.and_eq_true, decide_eq_true_eq]
        omega

theorem natToDigits_ne_nil (n : Nat) : natToDigits n ≠ [] := by
  unfold natToDigits natToDigitsAux
  by_cases h : n < 10 <;> simp [h]

theorem isAnswerFormat_toFixed2Fixed (sign : Bool) (intDs fracDs : List Nat) :
    isAnswerFormat (toFixed2Fixed sign intDs fracDs) = true := by
  have h1 : isDigitC (48 + toFixedRounded intDs fracDs % 100 / 10) = true := by
    simp only [isDigitC, Bool.and_eq_true, decide_eq_true_eq]
    omega
  have h2 : isDigitC (48 + toFixedRounded intDs fracDs % 100 % 10) = true := by
    simp only [isDigitC, Bool.and_eq_true, decide_eq_true_eq]
    omega
  have hs := isAnswerFormat_shape sign (natToDigits (toFixedRounded intDs fracDs / 100))
    (48 + toFixedRounded intDs fracDs % 100 / 10) (48 + toFixedRounded intDs fracDs % 100 % 10)
    (natToDigits_ne_nil _) (fun c hc => natToDigitsAux_digits _ _ c hc) h1 h2
  simpa [toFixed2Fixed, pad2, List.append_assoc] using hs

theorem isAnswerFormat_toFixed2 (neg : Bool) (intDs fracDs : List Nat)
    (hlt : digitsToNat intDs < TO_FIXED_EXP_THRESHOLD) :
    isAnswerFormat (toFixed2 neg intDs fracDs) = true := by
  have hle : TO_FIXED_EXP_THRESHOLD ≤ PARSE_FLOAT_INFINITY_THRESHOLD := by decide
  unfold toFixed2
  rw [if_neg (by omega), if_neg (by omega)]
  exact isAnswerFormat_toFixed2Fixed _ _ _

theorem takeWhile_all {p : Nat → Bool} :
    ∀ l : List Nat, (∀ c ∈ l, p c = true) → l.takeWhile p = l := by
  intro l h
  induction l with
  | nil => rfl
  | cons a as ih =>
    rw [List.takeWhile_cons_of_pos (h a (by simp)), ih (fun c hc => h c (by simp [hc]))]

theorem dropWhile_all {p : Nat → Bool} :
    ∀ l : List Nat, (∀ c ∈ l, p c = true) → l.dropWhile p = [] := by
  intro l h
  induction l with
  | nil => rfl
  | cons a as ih =>
    rw [List.dropWhile_cons_of_pos (h a (by simp))]
    exact ih (fun c hc => h c (by simp [hc]))

theorem stripTrailingZeros_subset (l : List Nat) (c : Nat)
    (hc : c ∈ stripTrailingZeros l) : c ∈ l := by
  unfold stripTrailingZeros at hc
  rw [List.mem_reverse] at hc
  have h2 := (List.dropWhile_suffix (fun x => x == 48)).subset hc
  rwa [List.mem_reverse] at h2

theorem isExpTail_exp (k : Nat) : isExpTail (101 :: 43 :: natToDigits k) = true := by
  simp only [isExpTail]
  rw [@takeWhile_all (fun c => isDigitC c) (natToDigits k)
      (fun c hc => natToDigitsAux_digits _ _ c hc),
    @dropWhile_all (fun c => isDigitC c) (natToDigits k)
      (fun c hc => natToDigitsAux_digits _ _ c hc)]
  simp [natToDigits_ne_nil k]

theorem jsExpToString_ok (v : Nat) :
    isHugeBody (jsExpToString v) = true ∧ (jsExpToString v).head? ≠ some 45 := by
  have hdig : ∀ c ∈ stripTrailingZeros (natToDigits v), isDigitC c = true :=
    fun c hc => natToDigitsAux_digits _ _ c (stripTrailingZeros_subset _ c hc)
  have hexp := isExpTail_exp ((natToDigits v).length - 1)
  unfold jsExpToString
  cases hs : stripTrailingZeros (natToDigits v) with
  | nil =>
    constructor
    · simp only [isHugeBody]
      rw [if_neg (show ¬(101 : Nat) = 46 by decide), hexp,
        show isDigitC 48 = true by decide]
      simp
    · simp
  | cons d t =>
    have hd : isDigitC d = true := hdig d (by rw [hs]; exact List.mem_cons_self d t)
    have hd45 : ¬d = 45 := by
      intro h
      rw [h] at hd
      exact absurd hd (by decide)
    cases t with
    | nil =>
      constructor
      · simp only [isHugeBody]
        rw [if_neg (show ¬(101 : Nat) = 46 by decide), hexp, hd]
        simp
      · simp [hd45]
    | cons e t2 =>
      have hds : ∀ c ∈ e :: t2, isDigitC c = true := by
        intro c hc
        exact hdig c (by rw [hs]; exact List.mem_cons_of_mem d hc)
      have hsplit := takeDigits_append (e :: t2) 101
        (43 :: natToDigits ((natToDigits v).length - 1)) hds (by decide)
      simp only [takeDigits, Prod.mk.injEq] at hsplit
      constructor
      · simp only [isHugeBody]
        rw [if_pos trivial, hsplit.1, hsplit.2, hexp, hd]
        simp
      · simp [hd45]

theorem isHugeFallbackForm_of_body (b : Bool) (body : List Nat)
    (hb : isHugeBody body = true) (hhead : body.head? ≠ some 45) :
    isHugeFallbackForm ((if b then [45] else []) ++ body) = true := by
  cases b with
  | true =>
    show isHugeFallbackForm (45 :: body) = true
    simp [isHugeFallbackForm, hb]
  | false =>
    show isHugeFallbackForm body = true
    cases body with
    | nil => exact absurd hb (by decide)
    | cons c rest =>
      have hc : ¬c = 45 := by simpa using hhead
      simp [isHugeFallbackForm, if_neg hc, hb]

theorem isHugeFallbackForm_exp (b : Bool) (v : Nat) :
    isHugeFallbackForm ((if b then [45] else []) ++ jsExpToString v) = true :=
  isHugeFallbackForm_of_body b _ (jsExpToString_ok v).1 (jsExpToString_ok v).2

theorem isHugeFallbackForm_inf (b : Bool) :
    isHugeFallbackForm ((if b then [45] else []) ++ codes "Infinity") = true := by
  cases b <;> decide

theorem toFixed2_format_or_huge (neg : Bool) (intDs fracDs : List Nat) :
    isAnswerFormat (toFixed2 neg intDs fracDs) = true
      ∨ isHugeFallbackForm (toFixed2 neg intDs fracDs) = true := by
  by_cases h1 : PARSE_FLOAT_INFINITY_THRESHOLD ≤ digitsToNat intDs
  · right
    unfold toFixed2
    rw [if_pos h1]
    exact isHugeFallbackForm_inf _
  · by_cases h2 : TO_FIXED_EXP_THRESHOLD ≤ digitsToNat intDs
    · right
      unfold toFixed2
      rw [if_neg h1, if_pos h2]
      exact isHugeFallbackForm_exp _ _
    · left
      exact isAnswerFormat_toFixed2 neg intDs fracDs (by omega)

theorem matchIntAt_shape (l : List Nat) (neg : Bool) (ds r : List Nat)
    (h : matchIntAt l = some (neg, ds, r)) :
    ds ≠ [] ∧ ∀ c ∈ ds, isDigitC c = true := by
  unfold matchIntAt at h
  split at h
  · cases h
  next c rest =>
    by_cases hc : c = 45
    · rw [if_pos hc] at h
      simp only [takeDigits] at h
      split at h
      · cases h
      next hne =>
        cases h
        refine ⟨by simpa using hne, fun x hx => List.mem_takeWhile_imp hx⟩
    · rw [if_neg hc] at h
      simp only [takeDigits] at h
      split at h
      · cases h
      next hne =>
        cases h
        refine ⟨by simpa using hne, fun x hx => List.mem_takeWhile_imp hx⟩

theorem matchExactAt_shape (l m : List Nat) (h : matchExactAt l = some m) :
    isAnswerFormat m = true := by
  unfold matchExactAt at h
  split at h
  · cases h
  next x neg ds r hint =>
    obtain ⟨hne, hds⟩ := matchIntAt_shape l neg ds r hint
    split at h
    next p d1 d2 r2 =>
      split at h
      next hcond =>
        simp only [Bool.and_eq_true, decide_eq_true_eq] at hcond
        obtain ⟨⟨⟨hp, hd1⟩, hd2⟩, -⟩ := hcond
        cases h
        subst hp
        exact isAnswerFormat_shape neg ds d1 d2 hne hds hd1 hd2
      · cases h
    next => cases h

theorem searchExact_shape :
    ∀ (l m : List Nat), searchExact l = some m → isAnswerFormat m = true := by
  intro l
  induction l with
  | nil => intro m h; cases h
  | cons c rest ih =>
    intro m h
    unfold searchExact at h
    cases hm : matchExactAt (c :: rest) with
    | some m2 =>
      rw [hm] at h
      cases h
      exact matchExactAt_shape _ _ hm
    | none =>
      rw [hm] at h
      exact ih m h

/-- C10 counterexample: a reply consisting of the 22-digit integer `10^21`
is coerced — `toFixed(2)` falls back to `ToString` at that magnitude and the
result is `"1e+21"` — but `"1e+21"` does not match `-?\d+\.\d{2}`, refuting
the claimed universal two-decimal format of non-`null` results. -/
theorem c10_parseAnswer_format_counterexample :
    parseAnswer (codes "1000000000000000000000") = some (codes "1e+21")
      ∧ isAnswerFormat (codes "1e+21") = false :=
  ⟨by decide, by decide⟩

/-- C10 (amended): every non-`null` result of `parseAnswer` matches
`-?\d+\.\d{2}` in full, unless the matched number reaches `toFixed`'s
`ToString` fallback at magnitude `≥ 10^21`, in which case the result is that
fallback rendering — an optional minus sign followed by exponential notation
or `Infinity`; in particular, every `toFixed(2)` rendering whose integer
part stays below the fallback threshold matches `-?\d+\.\d{2}` in full. -/
theorem c10_parseAnswer_format_amended :
    (∀ raw a : List Nat, parseAnswer raw = some a →
        isAnswerFormat a = true ∨ isHugeFallbackForm a = true)
      ∧ (∀ (neg : Bool) (intDs fracDs : List Nat),
          digitsToNat intDs < TO_FIXED_EXP_THRESHOLD →
            isAnswerFormat (toFixed2 neg intDs fracDs) = true) := by
  constructor
  · intro raw a h
    simp only [parseAnswer] at h
    cases hex : searchExact (trimJS raw) with
    | some m =>
      rw [hex] at h
      cases h
      exact Or.inl (searchExact_shape _ _ hex)
    | none =>
      rw [hex] at h
      cases hdec : searchDecimal (trimJS raw) with
      | some x =>
        obtain ⟨neg, ints, fracs⟩ := x
        rw [hdec] at h
        cases h
        exact toFixed2_format_or_huge neg ints fracs
      | none =>
        rw [hdec] at h
        cases hint : searchInteger (trimJS raw) with
        | some x =>
          obtain ⟨neg, ints⟩ := x
          rw [hint] at h
          cases h
          exact toFixed2_format_or_huge neg ints []
        | none =>
          rw [hint] at h
          cases h
  · intro neg intDs fracDs hlt
    exact isAnswerFormat_toFixed2 neg intDs fracDs hlt

/-- C10 witness: `parseAnswer` on "roughly 47.123 meters" yields "47.12",
which falls under the amended format guarantee, and the `toFixed(2)`
rendering of `47.5` — integer part far below the fallback threshold —
matches `-?\d+\.\d{2}` in full. -/
theorem c10_parseAnswer_format_amended_witness :
    (isAnswerFormat (codes "47.12") = true ∨ isHugeFallbackForm (codes "47.12") = true)
      ∧ isAnswerFormat (toFixed2 false (codes "47") (codes "5")) = true :=
  ⟨c10_parseAnswer_format_amended.1 (codes "roughly 47.123 meters") (codes "47.12") (by decide),
    c10_parseAnswer_format_amended.2 false (codes "47") (codes "5") (by decide)⟩

/-! ### The challenge solver loop (`solveChallengeWithGPT` of `shared.js`, C8)

The source loops `for (attempt = 0; attempt < 2)`: call the oracle, throw if
it returned no content, return the parsed answer if `parseAnswer` accepts it,
otherwise retry once with a corrective user message (and perturbed sampling
temperature), and throw after the second failure.  The oracle is modelled as
a function from the attempt index to the optional reply text. -/

inductive SolveError where
  /-- The oracle response carried no message content (source: "GPT returned
  no answer"). -/
  | noReply
  /-- Both attempts produced text that `parseAnswer` rejected (source: "GPT
  could not produce a valid numeric answer after 2 attempts"). -/
  | invalidFormat
  deriving Repr, DecidableEq

/-- The user message sent on a given attempt (attempt 0 is the plain request;
every later attempt carries the corrective instruction). -/
def gptUserPrompt (attempt : Nat) (challenge decoded : String) : String :=
  if attempt = 0 then
    "Solve this math problem. Reply with ONLY the number (2 decimal places).\n\nOriginal: "
      ++ challenge ++ "\n\nDecoded: " ++ decoded
  else
    "The previous answer was not a valid number. Try again. Solve this math problem and reply with ONLY a number like 47.00\n\nOriginal: "
      ++ challenge ++ "\n\nDecoded: " ++ decoded

/-- `solveChallengeWithGPT`: result plus the list of attempt indices at which
the oracle was actually called. -/
def solveChallengeWithGPT (oracle : Nat → Option (List Nat)) :
    Except SolveError (List Nat) × List Nat :=
  match oracle 0 with
  | none => (.error .noReply, [0])
  | some r0 =>
    match parseAnswer r0 with
    | some a => (.ok a, [0])
    | none =>
      match oracle 1 with
      | none => (.error .noReply, [0, 1])
      | some r1 =>
        match parseAnswer r1 with
        | some a => (.ok a, [0, 1])
        | none => (.error .invalidFormat, [0, 1])

theorem gptUserPrompt_corrective_ne (c d : String) :
    gptUserPrompt 0 c d ≠ gptUserPrompt 1 c d := by
  intro h
  have h0 : gptUserPrompt 0 c d
      = "Solve this math problem. Reply with ONLY the number (2 decimal places).\n\nOriginal: "
        ++ c ++ "\n\nDecoded: " ++ d := rfl
  have h1 : gptUserPrompt 1 c d
      = "The previous answer was not a valid number. Try again. Solve this math problem and reply with ONLY a number like 47.00\n\nOriginal: "
        ++ c ++ "\n\nDecoded: " ++ d := rfl
  rw [h0, h1] at h
  have hlen := congrArg String.length h
  simp only [String.length_append] at hlen
  have e0 : ("Solve this math problem. Reply with ONLY the number (2 decimal places).\n\nOriginal: " : String).length = 83 := by decide
  have e1 : ("The previous answer was not a valid number. Try again. Solve this math problem and reply with ONLY a number like 47.00\n\nOriginal: " : String).length = 130 := by decide
  rw [e0, e1] at hlen
  omega

/-- C8: the coercion examples `"47" ↦ "47.00"`, `"47.5" ↦ "47.50"`,
`"the answer is 47.00" ↦ "47.00"` hold, an input with no numeric token
yields no answer, and when both oracle replies fail to parse, the solver
makes exactly the two calls (attempt 0, then the single retry at attempt 1,
whose user message is the distinct corrective instruction) and then fails. -/
theorem c8_answer_coercion_retry :
    parseAnswer (codes "47") = some (codes "47.00")
    ∧ parseAnswer (codes "47.5") = some (codes "47.50")
    ∧ parseAnswer (codes "the answer is 47.00") = some (codes "47.00")
    ∧ parseAnswer (codes "I don't know") = none
    ∧ (∀ (oracle : Nat → Option (List Nat)) (r0 r1 : List Nat),
        oracle 0 = some r0 → parseAnswer r0 = none →
        oracle 1 = some r1 → parseAnswer r1 = none →
          (solveChallengeWithGPT oracle).1 = .error .invalidFormat
          ∧ (solveChallengeWithGPT oracle).2 = [0, 1])
    ∧ (∀ c d : String, gptUserPrompt 0 c d ≠ gptUserPrompt 1 c d) := by
  refine ⟨by decide, by decide, by decide, by decide, ?_, gptUserPrompt_corrective_ne⟩
  intro oracle r0 r1 h0 hp0 h1 hp1
  constructor <;> simp [solveChallengeWithGPT, h0, hp0, h1, hp1]

/-- C8 witness: a constant oracle answering "I don't know" makes the solver
call attempts 0 and 1 and fail with the invalid-format error. -/
theorem c8_answer_coercion_retry_witness :
    (solveChallengeWithGPT (fun _ => some (codes "I don't know"))).1
        = .error .invalidFormat
    ∧ (solveChallengeWithGPT (fun _ => some (codes "I don't know"))).2 = [0, 1] :=
  (c8_answer_coercion_retry).2.2.2.2.1 (fun _ => some (codes "I don't know"))
    (codes "I don't know") (codes "I don't know") rfl (by decide) rfl (by decide)

/-! ### Challenge normalization (`deobfuscate` of `shared.js`, C9)

`deobfuscate` runs four global regex replacements:
1. `[^a-zA-Z0-9\s.,?!]` -> a space;
2. `\s+` -> a single space, then `toLowerCase`, then `trim`;
3. `([a-z])\1+` -> the single letter (maximal runs of one repeated lowercase
   letter collapse to one; the greedy backreference makes each match a
   maximal run, so the global replace is exactly per-run collapse);
4. `\b(um+)\b` -> the empty string, then `\s+` -> a space, then `trim`.

For step 4, a match is a `u` followed by one or more `m`s with a word
boundary on both sides; greediness needs no backtracking (if the character
after the maximal `m`-run is a word character, shorter runs end on an `m`,
also a word character, so no run length matches).  The scanner below walks
the string left to right carrying "the previous character is a word
character", which is exactly the information `\b` needs. -/

/-- Step 1: keep `[a-zA-Z0-9\s.,?!]`, replace everything else by a space. -/
def step1 : List Nat → List Nat :=
  List.map (fun c => if isAlphaNumC c || isSpaceC c || isKeepPunctC c then c else 32)

/-- `replace(/\s+/g, " ")`: each maximal whitespace run becomes one space. -/
def collapseSpaces : List Nat → List Nat
  | [] => []
  | c :: rest =>
    match rest with
    | [] => [if isSpaceC c then 32 else c]
    | d :: _ =>
      if isSpaceC c && isSpaceC d then collapseSpaces rest
      else (if isSpaceC c then 32 else c) :: collapseSpaces rest

/-- `toLowerCase` on every character. -/
def toLowerStr : List Nat → List Nat := List.map toLowerC

/-- `replace(/([a-z])\1+/g, "$1")`: collapse maximal runs of a repeated
lowercase letter to a single copy. -/
def collapseRepeats : List Nat → List Nat
  | [] => []
  | [c] => [c]
  | c :: d :: rest =>
    if c = d && isLowerC c then collapseRepeats (d :: rest)
    else c :: collapseRepeats (d :: rest)

/-- `replace(/\b(um+)\b/g, "")`.  `prevWord` says whether the character just
before the current position is a word character (`false` at the start of the
string). -/
def removeUmAux : Bool → List Nat → List Nat
  | _, [] => []
  | prevWord, c :: rest =>
    if c = 117 && !prevWord then
      if (rest.takeWhile (fun x => x = 109)).isEmpty then
        c :: removeUmAux true rest
      else if boundaryBlocked (rest.dropWhile (fun x => x = 109)) then
        c :: removeUmAux true rest
      else
        removeUmAux true (rest.dropWhile (fun x => x = 109))
    else
      c :: removeUmAux (isWordC c) rest
  termination_by _ l => l.length
  decreasing_by
    · simp only [List.length_cons]
      omega
    · simp only [List.length_cons]
      omega
    · simp only [List.length_cons]
      have h : (rest.dropWhile (fun x => x = 109)).length ≤ rest.length :=
        (List.dropWhile_sublist _).length_le
      omega
    · simp only [List.length_cons]
      omega

/-- Whether `\b(um+)\b` matches anywhere (same scan as `removeUmAux`). -/
def hasUmAux : Bool → List Nat → Bool
  | _, [] => false
  | prevWord, c :: rest =>
    if c = 117 && !prevWord then
      if (rest.takeWhile (fun x => x = 109)).isEmpty then
        hasUmAux true rest
      else if boundaryBlocked (rest.dropWhile (fun x => x = 109)) then
        hasUmAux true rest
      else
        true
    else
      hasUmAux (isWordC c) rest
  termination_by _ l => l.length
  decreasing_by
    · simp only [List.length_cons]
      omega
    · simp only [List.length_cons]
      omega
    · simp only [List.length_cons]
      omega

/-- `deobfuscate` of `shared.js`. -/
def deobfuscate (l : List Nat) : List Nat :=
  let s1 := step1 l
  let s2 := trimJS (toLowerStr (collapseSpaces s1))
  let s3 := collapseRepeats s2
  trimJS (collapseSpaces (removeUmAux false s3))

/-! ### Idempotence of `deobfuscate` (C9)

A string is *normalized* when it uses only the output alphabet (lowercase
letters, digits, the kept punctuation, plain spaces), has no leading,
trailing or doubled spaces, no adjacent repeated lowercase letter, and no
`\b(um+)\b` token.  `deobfuscate` maps every string into this set and fixes
every member of it, hence is idempotent. -/

/-- Characters occurring in normalized strings. -/
def nfChar (c : Nat) : Bool := isLowerC c || isDigitC c || isKeepPunctC c || c = 32

/-- The adjacency constraint "no two whitespace characters in a row". -/
def Rsp (a b : Nat) : Prop := ¬(isSpaceC a = true ∧ isSpaceC b = true)

/-- The adjacency constraint "no repeated lowercase letter". -/
def Rrep (a b : Nat) : Prop := ¬(a = b ∧ isLowerC a = true)

/-- Normal form of `deobfuscate` outputs. -/
structure IsNormalized (l : List Nat) : Prop where
  charset : ∀ c ∈ l, nfChar c = true
  spacing : l.Chain' Rsp
  headOk : ∀ c ∈ l.head?, isSpaceC c = false
  lastOk : ∀ c ∈ l.getLast?, isSpaceC c = false
  repOk : l.Chain' Rrep
  umOk : hasUmAux false l = false

theorem Rsp_symm {a b : Nat} (h : Rsp a b) : Rsp b a := fun hc => h ⟨hc.2, hc.1⟩

theorem Rrep_symm {a b : Nat} (h : Rrep a b) : Rrep b a := by
  intro hc
  exact h ⟨hc.1.symm, hc.1 ▸ hc.2⟩

theorem nfChar_allowed (c : Nat) (h : nfChar c = true) :
    (isAlphaNumC c || isSpaceC c || isKeepPunctC c) = true := by
  simp only [nfChar, isAlphaNumC, isLowerC, isUpperC, isDigitC, isKeepPunctC, isSpaceC,
    Bool.or_eq_true, Bool.and_eq_true, decide_eq_true_eq] at h ⊢
  omega

theorem nfChar_space (c : Nat) (h : nfChar c = true) (hs : isSpaceC c = true) : c = 32 := by
  simp only [nfChar, isLowerC, isDigitC, isKeepPunctC, isSpaceC,
    Bool.or_eq_true, Bool.and_eq_true, decide_eq_true_eq] at h hs
  omega

theorem nfChar_not_upper (c : Nat) (h : nfChar c = true) : isUpperC c = false := by
  rw [Bool.eq_false_iff]
  intro hu
  simp only [nfChar, isLowerC, isDigitC, isKeepPunctC, Bool.or_eq_true, Bool.and_eq_true,
    decide_eq_true_eq] at h
  simp only [isUpperC, Bool.and_eq_true, decide_eq_true_eq] at hu
  omega

/-! #### Small step lemmas for the scanners -/

theorem removeUmAux_nil (pw : Bool) : removeUmAux pw [] = [] := by
  rw [removeUmAux]

theorem hasUmAux_nil (pw : Bool) : hasUmAux pw [] = false := by
  rw [hasUmAux]

theorem removeUmAux_cons_else (pw : Bool) (c : Nat) (rest : List Nat)
    (h : (decide (c = 117) && !pw) = false) :
    removeUmAux pw (c :: rest) = c :: removeUmAux (isWordC c) rest := by
  rw [removeUmAux]
  simp [h]

theorem removeUmAux_cons_keep1 (pw : Bool) (c : Nat) (rest : List Nat)
    (h : (decide (c = 117) && !pw) = true)
    (h2 : (rest.takeWhile (fun x => x = 109)).isEmpty = true) :
    removeUmAux pw (c :: rest) = c :: removeUmAux true rest := by
  rw [removeUmAux]
  simp [h, h2]

theorem removeUmAux_cons_keep2 (pw : Bool) (c : Nat) (rest : List Nat)
    (h : (decide (c = 117) && !pw) = true)
    (h2 : ¬(rest.takeWhile (fun x => x = 109)).isEmpty = true)
    (h3 : boundaryBlocked (rest.dropWhile (fun x => x = 109)) = true) :
    removeUmAux pw (c :: rest) = c :: removeUmAux true rest := by
  rw [removeUmAux]
  simp [h, h2, h3]

theorem removeUmAux_cons_match (pw : Bool) (c : Nat) (rest : List Nat)
    (h : (decide (c = 117) && !pw) = true)
    (h2 : ¬(rest.takeWhile (fun x => x = 109)).isEmpty = true)
    (h3 : ¬boundaryBlocked (rest.dropWhile (fun x => x = 109)) = true) :
    removeUmAux pw (c :: rest) = removeUmAux true (rest.dropWhile (fun x => x = 109)) := by
  rw [removeUmAux]
  simp [h, h2, h3]

theorem hasUmAux_cons_else (pw : Bool) (c : Nat) (rest : List Nat)
    (h : (decide (c = 117) && !pw) = false) :
    hasUmAux pw (c :: rest) = hasUmAux (isWordC c) rest := by
  rw [hasUmAux]
  simp [h]

theorem hasUmAux_cons_keep1 (pw : Bool) (c : Nat) (rest : List Nat)
    (h : (decide (c = 117) && !pw) = true)
    (h2 : (rest.takeWhile (fun x => x = 109)).isEmpty = true) :
    hasUmAux pw (c :: rest) = hasUmAux true rest := by
  rw [hasUmAux]
  simp [h, h2]

theorem hasUmAux_cons_keep2 (pw : Bool) (c : Nat) (rest : List Nat)
    (h : (decide (c = 117) && !pw) = true)
    (h2 : ¬(rest.takeWhile (fun x => x = 109)).isEmpty = true)
    (h3 : boundaryBlocked (rest.dropWhile (fun x => x = 109)) = true) :
    hasUmAux pw (c :: rest) = hasUmAux true rest := by
  rw [hasUmAux]
  simp [h, h2, h3]

theorem hasUmAux_cons_match (pw : Bool) (c : Nat) (rest : List Nat)
    (h : (decide (c = 117) && !pw) = true)
    (h2 : ¬(rest.takeWhile (fun x => x = 109)).isEmpty = true)
    (h3 : ¬boundaryBlocked (rest.dropWhile (fun x => x = 109)) = true) :
    hasUmAux pw (c :: rest) = true := by
  rw [hasUmAux]
  simp [h, h2, h3]

theorem hasUmAux_singleton (pw : Bool) (c : Nat) : hasUmAux pw [c] = false := by
  by_cases h : (decide (c = 117) && !pw) = true
  · rw [hasUmAux_cons_keep1 pw c [] h (by simp), hasUmAux_nil]
  · rw [hasUmAux_cons_else pw c [] (by revert h; cases (decide (c = 117) && !pw) <;> simp),
      hasUmAux_nil]

/-- The scan result does not depend on the incoming boundary flag unless the
string starts with `u`. -/
theorem hasUmAux_pw_irrel (pw pw2 : Bool) (l : List Nat)
    (h : ∀ c ∈ l.head?, c ≠ 117) : hasUmAux pw l = hasUmAux pw2 l := by
  cases l with
  | nil => rw [hasUmAux_nil, hasUmAux_nil]
  | cons c rest =>
    have hc : c ≠ 117 := h c rfl
    rw [hasUmAux_cons_else pw c rest (by simp [hc]),
      hasUmAux_cons_else pw2 c rest (by simp [hc])]

/-! #### takeWhile / dropWhile helpers -/

theorem head?_dropWhile (p : Nat → Bool) :
    ∀ l : List Nat, ∀ w ∈ (l.dropWhile p).head?, p w = false := by
  intro l
  induction l with
  | nil => intro w hw; cases hw
  | cons a t ih =>
    intro w hw
    by_cases hp : p a = true
    · rw [List.dropWhile_cons_of_pos hp] at hw
      exact ih w hw
    · rw [List.dropWhile_cons_of_neg hp] at hw
      cases hw
      exact Bool.eq_false_iff.mpr hp

theorem takeWhile_append_all {p : Nat → Bool} :
    ∀ (ms x : List Nat), (∀ a ∈ ms, p a = true) → (∀ w ∈ x.head?, p w = false) →
      (ms ++ x).takeWhile p = ms ∧ (ms ++ x).dropWhile p = x := by
  intro ms
  induction ms with
  | nil =>
    intro x _ hx
    cases x with
    | nil => exact ⟨rfl, rfl⟩
    | cons w t =>
      have := hx w rfl
      exact ⟨List.takeWhile_cons_of_neg (by simp [this]),
        List.dropWhile_cons_of_neg (by simp [this])⟩
  | cons a ms ih =>
    intro x hms hx
    have ha : p a = true := hms a (by simp)
    obtain ⟨h1, h2⟩ := ih x (fun b hb => hms b (by simp [hb])) hx
    constructor
    · rw [List.cons_append, List.takeWhile_cons_of_pos ha, h1]
    · rw [List.cons_append, List.dropWhile_cons_of_pos ha, h2]

theorem dropWhile_append_ne_nil {p : Nat → Bool} :
    ∀ (xs ys : List Nat), xs.dropWhile p ≠ [] →
      (xs ++ ys).dropWhile p = xs.dropWhile p ++ ys := by
  intro xs
  induction xs with
  | nil => intro ys h; exact absurd rfl h
  | cons a t ih =>
    intro ys h
    by_cases hp : p a = true
    · rw [List.dropWhile_cons_of_pos hp] at h
      rw [List.cons_append, List.dropWhile_cons_of_pos hp, List.dropWhile_cons_of_pos hp,
        ih ys h]
    · rw [List.cons_append, List.dropWhile_cons_of_neg hp, List.dropWhile_cons_of_neg hp,
        List.cons_append]

theorem dropWhile_append_nil {p : Nat → Bool} :
    ∀ (xs ys : List Nat), xs.dropWhile p = [] →
      (xs ++ ys).dropWhile p = ys.dropWhile p := by
  intro xs
  induction xs with
  | nil => intro ys _; rfl
  | cons a t ih =>
    intro ys h
    by_cases hp : p a = true
    · rw [List.dropWhile_cons_of_pos hp] at h
      rw [List.cons_append, List.dropWhile_cons_of_pos hp, ih ys h]
    · rw [List.dropWhile_cons_of_neg hp] at h
      cases h

/-! #### `deobfuscate` fixes normalized strings -/

theorem step1_id (l : List Nat) (h : ∀ c ∈ l, nfChar c = true) : step1 l = l := by
  unfold step1
  conv_rhs => rw [← List.map_id l]
  apply List.map_congr_left
  intro c hc
  rw [if_pos (nfChar_allowed c (h c hc))]
  rfl

theorem collapseSpaces_id (l : List Nat) (hch : ∀ c ∈ l, isSpaceC c = true → c = 32)
    (hsp : l.Chain' Rsp) : collapseSpaces l = l := by
  induction l using collapseSpaces.induct with
  | case1 => rfl
  | case2 c =>
    by_cases hc : isSpaceC c = true
    · rw [collapseSpaces, if_pos hc, hch c (by simp) hc]
    · rw [collapseSpaces, if_neg hc]
  | case3 c d rest hcd ih =>
    rw [List.chain'_cons] at hsp
    simp only [Bool.and_eq_true] at hcd
    exact absurd ⟨hcd.1, hcd.2⟩ hsp.1
  | case4 c d rest hcd ih =>
    rw [collapseSpaces, if_neg hcd]
    rw [List.chain'_cons] at hsp
    have htl := ih (fun x hx hs => hch x (by simp [hx]) hs) hsp.2
    rw [htl]
    by_cases hc : isSpaceC c = true
    · rw [if_pos hc, hch c (by simp) hc]
    · rw [if_neg hc]

theorem toLowerStr_id (l : List Nat) (h : ∀ c ∈ l, isUpperC c = false) :
    toLowerStr l = l := by
  unfold toLowerStr
  conv_rhs => rw [← List.map_id l]
  apply List.map_congr_left
  intro c hc
  unfold toLowerC
  rw [if_neg (by simp [h c hc])]
  rfl

theorem dropWhile_head_id (p : Nat → Bool) (l : List Nat)
    (h : ∀ c ∈ l.head?, p c = false) : l.dropWhile p = l := by
  cases l with
  | nil => rfl
  | cons a t => exact List.dropWhile_cons_of_neg (by simp [h a rfl])

theorem trimJS_id (l : List Nat) (hh : ∀ c ∈ l.head?, isSpaceC c = false)
    (hl : ∀ c ∈ l.getLast?, isSpaceC c = false) : trimJS l = l := by
  unfold trimJS trimLeft trimRight
  rw [dropWhile_head_id _ _ hh, dropWhile_head_id, List.reverse_reverse]
  intro c hc
  rw [List.head?_reverse] at hc
  exact hl c hc

theorem collapseRepeats_id (l : List Nat) (hrep : l.Chain' Rrep) :
    collapseRepeats l = l := by
  induction l using collapseRepeats.induct with
  | case1 => rfl
  | case2 c => rfl
  | case3 c d rest hcd ih =>
    rw [List.chain'_cons] at hrep
    simp only [Bool.and_eq_true, decide_eq_true_eq] at hcd
    exact absurd ⟨hcd.1, hcd.2⟩ hrep.1
  | case4 c d rest hcd ih =>
    rw [List.chain'_cons] at hrep
    rw [collapseRepeats, if_neg hcd, ih hrep.2]

theorem removeUmAux_id : ∀ (pw : Bool) (l : List Nat),
    hasUmAux pw l = false → removeUmAux pw l = l := by
  intro pw l
  induction pw, l using removeUmAux.induct with
  | case1 pw => intro _; rw [removeUmAux_nil]
  | case2 pw c rest h h2 ih =>
    intro hum
    rw [hasUmAux_cons_keep1 pw c rest h h2] at hum
    rw [removeUmAux_cons_keep1 pw c rest h h2, ih hum]
  | case3 pw c rest h h2 h3 ih =>
    intro hum
    rw [hasUmAux_cons_keep2 pw c rest h h2 h3] at hum
    rw [removeUmAux_cons_keep2 pw c rest h h2 h3, ih hum]
  | case4 pw c rest h h2 h3 ih =>
    intro hum
    rw [hasUmAux_cons_match pw c rest h h2 h3] at hum
    cases hum
  | case5 pw c rest h ih =>
    intro hum
    have h' : (decide (c = 117) && !pw) = false := by
      revert h
      cases (decide (c = 117) && !pw) <;> simp
    rw [hasUmAux_cons_else pw c rest h'] at hum
    rw [removeUmAux_cons_else pw c rest h', ih hum]

/-- Every normalized string is a fixed point of `deobfuscate`. -/
theorem deobfuscate_fixed (l : List Nat) (h : IsNormalized l) : deobfuscate l = l := by
  have hch : ∀ c ∈ l, isSpaceC c = true → c = 32 :=
    fun c hc hs => nfChar_space c (h.charset c hc) hs
  show trimJS (collapseSpaces (removeUmAux false
      (collapseRepeats (trimJS (toLowerStr (collapseSpaces (step1 l))))))) = l
  rw [step1_id l h.charset, collapseSpaces_id l hch h.spacing,
    toLowerStr_id l (fun c hc => nfChar_not_upper c (h.charset c hc)),
    trimJS_id l h.headOk h.lastOk, collapseRepeats_id l h.repOk,
    removeUmAux_id false l h.umOk, collapseSpaces_id l hch h.spacing,
    trimJS_id l h.headOk h.lastOk]

/-! #### `deobfuscate` outputs are normalized: per-stage lemmas -/

theorem step1_mem (l : List Nat) :
    ∀ c ∈ step1 l, (isAlphaNumC c || isSpaceC c || isKeepPunctC c) = true := by
  intro c hc
  unfold step1 at hc
  obtain ⟨a, _, rfl⟩ := List.mem_map.mp hc
  by_cases h : (isAlphaNumC a || isSpaceC a || isKeepPunctC a) = true
  · rwa [if_pos h]
  · rw [if_neg h]
    rfl

theorem isSpaceC_ite (c : Nat) : isSpaceC (if isSpaceC c then 32 else c) = isSpaceC c := by
  by_cases h : isSpaceC c = true
  · rw [if_pos h, h]
    rfl
  · rw [if_neg h]

theorem collapseSpaces_cons :
    ∀ (rest : List Nat) (c : Nat), ∃ tl,
      collapseSpaces (c :: rest) = (if isSpaceC c then 32 else c) :: tl := by
  intro rest
  induction rest with
  | nil => intro c; exact ⟨[], rfl⟩
  | cons d r ih =>
    intro c
    by_cases h : (isSpaceC c && isSpaceC d) = true
    · obtain ⟨tl, htl⟩ := ih d
      refine ⟨tl, ?_⟩
      rw [collapseSpaces, if_pos h, htl]
      simp only [Bool.and_eq_true] at h
      rw [if_pos h.1, if_pos h.2]
    · exact ⟨collapseSpaces (d :: r), by rw [collapseSpaces, if_neg h]⟩

theorem collapseSpaces_mem :
    ∀ (l : List Nat), ∀ c ∈ collapseSpaces l, c = 32 ∨ (c ∈ l ∧ isSpaceC c = false) := by
  intro l
  induction l using collapseSpaces.induct with
  | case1 => intro c hc; cases hc
  | case2 a =>
    intro c hc
    by_cases h : isSpaceC a = true
    · rw [collapseSpaces, if_pos h] at hc
      cases hc with
      | head => exact Or.inl rfl
      | tail _ hm => cases hm
    · rw [collapseSpaces, if_neg h] at hc
      cases hc with
      | head => exact Or.inr ⟨by simp, Bool.eq_false_iff.mpr h⟩
      | tail _ hm => cases hm
  | case3 a d rest h ih =>
    intro c hc
    rw [collapseSpaces, if_pos h] at hc
    rcases ih c hc with h32 | ⟨hm, hs⟩
    · exact Or.inl h32
    · exact Or.inr ⟨by simp [List.mem_cons] at hm ⊢; tauto, hs⟩
  | case4 a d rest h ih =>
    intro c hc
    rw [collapseSpaces, if_neg h] at hc
    cases hc with
    | head =>
      by_cases ha : isSpaceC a = true
      · rw [if_pos ha]
        exact Or.inl rfl
      · rw [if_neg ha]
        exact Or.inr ⟨by simp, Bool.eq_false_iff.mpr ha⟩
    | tail _ hm =>
      rcases ih c hm with h32 | ⟨hmem, hs⟩
      · exact Or.inl h32
      · exact Or.inr ⟨by simp [List.mem_cons] at hmem ⊢; tauto, hs⟩

theorem collapseSpaces_chain_sp (l : List Nat) : (collapseSpaces l).Chain' Rsp := by
  induction l using collapseSpaces.induct with
  | case1 => exact List.chain'_nil
  | case2 a => exact List.chain'_singleton _
  | case3 a d rest h ih => rw [collapseSpaces, if_pos h]; exact ih
  | case4 a d rest h ih =>
    rw [collapseSpaces, if_neg h]
    obtain ⟨tl, htl⟩ := collapseSpaces_cons rest d
    rw [htl]
    rw [htl] at ih
    rw [List.chain'_cons]
    refine ⟨?_, ih⟩
    intro ⟨h1, h2⟩
    rw [isSpaceC_ite] at h1 h2
    simp [h1, h2] at h

theorem collapseSpaces_chain_rep (l : List Nat) (hch : l.Chain' Rrep) :
    (collapseSpaces l).Chain' Rrep := by
  induction l using collapseSpaces.induct with
  | case1 => exact List.chain'_nil
  | case2 a => exact List.chain'_singleton _
  | case3 a d rest h ih =>
    rw [List.chain'_cons] at hch
    rw [collapseSpaces, if_pos h]
    exact ih hch.2
  | case4 a d rest h ih =>
    rw [List.chain'_cons] at hch
    rw [collapseSpaces, if_neg h]
    obtain ⟨tl, htl⟩ := collapseSpaces_cons rest d
    rw [htl]
    have ih' := ih hch.2
    rw [htl] at ih'
    rw [List.chain'_cons]
    refine ⟨?_, ih'⟩
    intro ⟨h1, h2⟩
    by_cases hsa : isSpaceC a = true
    · rw [if_pos hsa] at h2
      exact absurd h2 (by decide)
    · rw [if_neg hsa] at h1 h2
      by_cases hsd : isSpaceC d = true
      · rw [if_pos hsd] at h1
        rw [h1] at h2
        exact absurd h2 (by decide)
      · rw [if_neg hsd] at h1
        exact hch.1 ⟨h1, h2⟩

theorem toLowerC_space (c : Nat) : isSpaceC (toLowerC c) = isSpaceC c := by
  unfold toLowerC
  by_cases h : isUpperC c = true
  · rw [if_pos h]
    simp only [isUpperC, Bool.and_eq_true, decide_eq_true_eq] at h
    simp only [isSpaceC, Bool.or_eq_true, decide_eq_true_eq]
    have h1 : ¬(c + 32 = 32 ∨ c + 32 = 9 ∨ c + 32 = 10 ∨ c + 32 = 11 ∨ c + 32 = 12 ∨
        c + 32 = 13) := by omega
    have h2 : ¬(c = 32 ∨ c = 9 ∨ c = 10 ∨ c = 11 ∨ c = 12 ∨ c = 13) := by omega
    simp only [decide_eq_true_eq] at *
    rw [Bool.eq_iff_iff]
    simp only [Bool.or_eq_true, decide_eq_true_eq]
    tauto
  · rw [if_neg h]

theorem toLowerC_nfChar (a : Nat)
    (h1 : (isAlphaNumC a || isSpaceC a || isKeepPunctC a) = true)
    (h2 : isSpaceC a = true → a = 32) : nfChar (toLowerC a) = true := by
  unfold toLowerC
  by_cases h : isUpperC a = true
  · rw [if_pos h]
    simp only [isUpperC, Bool.and_eq_true, decide_eq_true_eq] at h
    simp only [nfChar, isLowerC, isDigitC, isKeepPunctC, Bool.or_eq_true, Bool.and_eq_true,
      decide_eq_true_eq]
    omega
  · rw [if_neg h]
    simp only [isAlphaNumC, isLowerC, isUpperC, isDigitC, isSpaceC, isKeepPunctC,
      Bool.or_eq_true, Bool.and_eq_true, decide_eq_true_eq] at h1 h2 h
    simp only [nfChar, isLowerC, isDigitC, isKeepPunctC, Bool.or_eq_true, Bool.and_eq_true,
      decide_eq_true_eq]
    omega

theorem toLowerStr_chain_sp (l : List Nat) (h : l.Chain' Rsp) :
    (toLowerStr l).Chain' Rsp := by
  unfold toLowerStr
  rw [List.chain'_map]
  refine h.imp ?_
  intro a b hab ⟨h1, h2⟩
  rw [toLowerC_space] at h1 h2
  exact hab ⟨h1, h2⟩

theorem trimJS_mem (l : List Nat) : ∀ c ∈ trimJS l, c ∈ l := by
  intro c hc
  unfold trimJS trimRight trimLeft at hc
  rw [List.mem_reverse] at hc
  have h1 := (List.dropWhile_suffix (fun c => isSpaceC c)).subset hc
  rw [List.mem_reverse] at h1
  exact (List.dropWhile_suffix (fun c => isSpaceC c)).subset h1

theorem chain'_reverse_of_symm {R : Nat → Nat → Prop} (hs : ∀ a b, R a b → R b a)
    (l : List Nat) (h : l.Chain' R) : l.reverse.Chain' R := by
  rw [List.chain'_reverse]
  exact h.imp (fun a b hab => hs a b hab)

theorem trimJS_chain {R : Nat → Nat → Prop} (hs : ∀ a b, R a b → R b a)
    (l : List Nat) (h : l.Chain' R) : (trimJS l).Chain' R := by
  unfold trimJS trimRight trimLeft
  apply chain'_reverse_of_symm hs
  refine List.Chain'.suffix ?_ (List.dropWhile_suffix _)
  apply chain'_reverse_of_symm hs
  exact h.suffix (List.dropWhile_suffix _)

theorem trimJS_headOk (l : List Nat) : ∀ c ∈ (trimJS l).head?, isSpaceC c = false := by
  intro c hc
  unfold trimJS trimRight at hc
  cases hy : trimLeft l with
  | nil => rw [hy] at hc; cases hc
  | cons a t =>
    have ha : isSpaceC a = false := by
      have := head?_dropWhile (fun c => isSpaceC c) l
      unfold trimLeft at hy
      rw [hy] at this
      exact this a rfl
    rw [hy] at hc
    by_cases hd : (t.reverse.dropWhile (fun c => isSpaceC c)) = []
    · rw [List.reverse_cons, dropWhile_append_nil _ _ hd] at hc
      by_cases hsa : isSpaceC a = true
      · rw [hsa] at ha; cases ha
      · rw [List.dropWhile_cons_of_neg (by simp [hsa])] at hc
        cases hc
        exact ha
    · rw [List.reverse_cons, dropWhile_append_ne_nil _ _ hd, List.reverse_append] at hc
      simp only [List.reverse_cons, List.reverse_nil, List.nil_append, List.cons_append,
        List.head?_cons, Option.mem_def, Option.some.injEq] at hc
      rw [← hc]
      exact ha

theorem trimJS_lastOk (l : List Nat) : ∀ c ∈ (trimJS l).getLast?, isSpaceC c = false := by
  intro c hc
  unfold trimJS trimRight at hc
  rw [List.getLast?_reverse] at hc
  exact head?_dropWhile _ _ c hc

theorem collapseRepeats_mem : ∀ (l : List Nat), ∀ c ∈ collapseRepeats l, c ∈ l := by
  intro l
  induction l using collapseRepeats.induct with
  | case1 => intro c hc; cases hc
  | case2 a => intro c hc; exact hc
  | case3 a d rest h ih =>
    intro c hc
    rw [collapseRepeats, if_pos h] at hc
    exact List.mem_cons_of_mem a (ih c hc)
  | case4 a d rest h ih =>
    intro c hc
    rw [collapseRepeats, if_neg h] at hc
    cases hc with
    | head => exact List.mem_cons_self _ _
    | tail _ hm => exact List.mem_cons_of_mem a (ih c hm)

theorem collapseRepeats_head :
    ∀ (rest : List Nat) (c : Nat), ∃ tl, collapseRepeats (c :: rest) = c :: tl := by
  intro rest
  induction rest with
  | nil => intro c; exact ⟨[], rfl⟩
  | cons d r ih =>
    intro c
    by_cases h : (c = d ∧ isLowerC c = true)
    · obtain ⟨tl, htl⟩ := ih d
      refine ⟨tl, ?_⟩
      have h2' : isLowerC d = true := h.1 ▸ h.2
      rw [collapseRepeats, if_pos (by simp [h.1, h2']), htl, h.1]
    · exact ⟨collapseRepeats (d :: r), by
        rw [collapseRepeats, if_neg (by simpa [Bool.and_eq_true, decide_eq_true_eq] using h)]⟩

theorem collapseRepeats_chain_rep (l : List Nat) : (collapseRepeats l).Chain' Rrep := by
  induction l using collapseRepeats.induct with
  | case1 => exact List.chain'_nil
  | case2 a => exact List.chain'_singleton _
  | case3 a d rest h ih => rw [collapseRepeats, if_pos h]; exact ih
  | case4 a d rest h ih =>
    rw [collapseRepeats, if_neg h]
    obtain ⟨tl, htl⟩ := collapseRepeats_head rest d
    rw [htl]
    rw [htl] at ih
    rw [List.chain'_cons]
    refine ⟨?_, ih⟩
    intro ⟨h1, h2⟩
    rw [h1] at h2
    simp [h1, h2] at h

/-! #### removeUm: membership, head, repeated-letter preservation, completeness -/

theorem isLowerC_isWordC (x : Nat) (h : isLowerC x = true) : isWordC x = true := by
  simp only [isLowerC, Bool.and_eq_true, decide_eq_true_eq] at h
  simp only [isWordC, isAlphaNumC, isLowerC, isUpperC, isDigitC, Bool.or_eq_true,
    Bool.and_eq_true, decide_eq_true_eq]
  omega

theorem removeUmAux_true_cons (c : Nat) (rest : List Nat) :
    removeUmAux true (c :: rest) = c :: removeUmAux (isWordC c) rest :=
  removeUmAux_cons_else true c rest (by simp)

theorem removeUmAux_mem : ∀ (pw : Bool) (l : List Nat), ∀ c ∈ removeUmAux pw l, c ∈ l := by
  intro pw l
  induction pw, l using removeUmAux.induct with
  | case1 pw => intro c hc; rw [removeUmAux_nil] at hc; cases hc
  | case2 pw c rest h h2 ih =>
    intro x hx
    rw [removeUmAux_cons_keep1 pw c rest h h2] at hx
    cases hx with
    | head => exact List.mem_cons_self _ _
    | tail _ hm => exact List.mem_cons_of_mem c (ih x hm)
  | case3 pw c rest h h2 h3 ih =>
    intro x hx
    rw [removeUmAux_cons_keep2 pw c rest h h2 h3] at hx
    cases hx with
    | head => exact List.mem_cons_self _ _
    | tail _ hm => exact List.mem_cons_of_mem c (ih x hm)
  | case4 pw c rest h h2 h3 ih =>
    intro x hx
    rw [removeUmAux_cons_match pw c rest h h2 h3] at hx
    exact List.mem_cons_of_mem c
      ((List.dropWhile_suffix (fun x => decide (x = 109))).subset (ih x hx))
  | case5 pw c rest h ih =>
    intro x hx
    have h' : (decide (c = 117) && !pw) = false := by
      revert h
      cases (decide (c = 117) && !pw) <;> simp
    rw [removeUmAux_cons_else pw c rest h'] at hx
    cases hx with
    | head => exact List.mem_cons_self _ _
    | tail _ hm => exact List.mem_cons_of_mem c (ih x hm)

theorem removeUmAux_head : ∀ (pw : Bool) (l : List Nat) (x : Nat),
    (removeUmAux pw l).head? = some x → l.head? = some x ∨ isWordC x = false := by
  intro pw l
  induction pw, l using removeUmAux.induct with
  | case1 pw => intro x hx; rw [removeUmAux_nil] at hx; cases hx
  | case2 pw c rest h h2 ih =>
    intro x hx
    rw [removeUmAux_cons_keep1 pw c rest h h2] at hx
    cases hx
    exact Or.inl rfl
  | case3 pw c rest h h2 h3 ih =>
    intro x hx
    rw [removeUmAux_cons_keep2 pw c rest h h2 h3] at hx
    cases hx
    exact Or.inl rfl
  | case4 pw c rest h h2 h3 ih =>
    intro x hx
    rw [removeUmAux_cons_match pw c rest h h2 h3] at hx
    rcases ih x hx with hh | hw
    · right
      cases hdw : rest.dropWhile (fun x => decide (x = 109)) with
      | nil => rw [hdw] at hh; cases hh
      | cons w t =>
        rw [hdw] at hh
        cases hh
        rw [hdw] at h3
        simpa [boundaryBlocked] using h3
    · exact Or.inr hw
  | case5 pw c rest h ih =>
    intro x hx
    have h' : (decide (c = 117) && !pw) = false := by
      revert h
      cases (decide (c = 117) && !pw) <;> simp
    rw [removeUmAux_cons_else pw c rest h'] at hx
    cases hx
    exact Or.inl rfl

theorem removeUmAux_chain_rep : ∀ (pw : Bool) (l : List Nat), l.Chain' Rrep →
    (removeUmAux pw l).Chain' Rrep := by
  intro pw l
  induction pw, l using removeUmAux.induct with
  | case1 pw => intro _; rw [removeUmAux_nil]; exact List.chain'_nil
  | case2 pw c rest h h2 ih =>
    intro hch
    rw [removeUmAux_cons_keep1 pw c rest h h2]
    rw [List.chain'_cons']
    refine ⟨?_, ih hch.tail⟩
    intro y hy
    rcases removeUmAux_head true rest y hy with hh | hw
    · exact (List.chain'_cons'.mp hch).1 y hh
    · intro ⟨h1, h2⟩
      rw [h1] at h2
      rw [isLowerC_isWordC y h2] at hw
      cases hw
  | case3 pw c rest h h2 h3 ih =>
    intro hch
    rw [removeUmAux_cons_keep2 pw c rest h h2 h3]
    rw [List.chain'_cons']
    refine ⟨?_, ih hch.tail⟩
    intro y hy
    rcases removeUmAux_head true rest y hy with hh | hw
    · exact (List.chain'_cons'.mp hch).1 y hh
    · intro ⟨h1, h2⟩
      rw [h1] at h2
      rw [isLowerC_isWordC y h2] at hw
      cases hw
  | case4 pw c rest h h2 h3 ih =>
    intro hch
    rw [removeUmAux_cons_match pw c rest h h2 h3]
    refine ih (hch.suffix ?_)
    exact (List.dropWhile_suffix _).trans (List.suffix_cons c rest)
  | case5 pw c rest h ih =>
    intro hch
    have h' : (decide (c = 117) && !pw) = false := by
      revert h
      cases (decide (c = 117) && !pw) <;> simp
    rw [removeUmAux_cons_else pw c rest h']
    rw [List.chain'_cons']
    refine ⟨?_, ih hch.tail⟩
    intro y hy
    rcases removeUmAux_head (isWordC c) rest y hy with hh | hw
    · exact (List.chain'_cons'.mp hch).1 y hh
    · intro ⟨h1, h2⟩
      rw [h1] at h2
      rw [isLowerC_isWordC y h2] at hw
      cases hw

/-! #### removeUm removes every `um` token -/

theorem removeUmAux_true_append_ms :
    ∀ (ms x : List Nat), (∀ a ∈ ms, a = 109) →
      removeUmAux true (ms ++ x) = ms ++ removeUmAux true x := by
  intro ms
  induction ms with
  | nil => intro x _; rfl
  | cons a t ih =>
    intro x hms
    have ha : a = 109 := hms a (by simp)
    subst ha
    have hw : isWordC 109 = true := by decide
    rw [List.cons_append, removeUmAux_true_cons, hw,
      ih x (fun b hb => hms b (List.mem_cons_of_mem _ hb))]
    rfl

theorem removeUmAux_no_um : ∀ (pw : Bool) (l : List Nat),
    hasUmAux pw (removeUmAux pw l) = false := by
  intro pw l
  induction pw, l using removeUmAux.induct with
  | case1 pw => rw [removeUmAux_nil, hasUmAux_nil]
  | case2 pw c rest h h2 ih =>
    rw [removeUmAux_cons_keep1 pw c rest h h2]
    have htw : ((removeUmAux true rest).takeWhile (fun x => decide (x = 109))).isEmpty
        = true := by
      cases rest with
      | nil => rw [removeUmAux_nil]; rfl
      | cons r0 rr =>
        have hr0 : ¬r0 = 109 := by
          intro he
          subst he
          rw [List.takeWhile_cons_of_pos (by simp)] at h2
          simp at h2
        rw [removeUmAux_true_cons, List.takeWhile_cons_of_neg (by simp [hr0])]
        rfl
    rw [hasUmAux_cons_keep1 pw c _ h htw]
    exact ih
  | case3 pw c rest h h2 h3 ih =>
    rw [removeUmAux_cons_keep2 pw c rest h h2 h3]
    have hms : ∀ a ∈ rest.takeWhile (fun x => decide (x = 109)), a = 109 := by
      intro a ha
      simpa using List.mem_takeWhile_imp ha
    have hsplit : rest.takeWhile (fun x => decide (x = 109))
        ++ rest.dropWhile (fun x => decide (x = 109)) = rest :=
      List.takeWhile_append_dropWhile _ rest
    cases hdw : rest.dropWhile (fun x => decide (x = 109)) with
    | nil =>
      rw [hdw] at h3
      simp [boundaryBlocked] at h3
    | cons w t =>
      have hwword : isWordC w = true := by
        rw [hdw] at h3
        simpa [boundaryBlocked] using h3
      have hw109 : ¬w = 109 := by
        have hh := head?_dropWhile (fun x => decide (x = 109)) rest
        rw [hdw] at hh
        simpa using hh w rfl
      have hrm : removeUmAux true rest
          = rest.takeWhile (fun x => decide (x = 109)) ++ removeUmAux true (w :: t) := by
        conv_lhs => rw [← hsplit, hdw]
        exact removeUmAux_true_append_ms _ _ hms
      have hout : removeUmAux true (w :: t) = w :: removeUmAux (isWordC w) t :=
        removeUmAux_true_cons w t
      have htw2 := takeWhile_append_all (p := fun x => decide (x = 109))
        (rest.takeWhile (fun x => decide (x = 109))) (removeUmAux true (w :: t))
        (fun a ha => by simp [hms a ha])
        (by
          rw [hout]
          intro z hz
          cases hz
          simp [hw109])
      rw [hrm, hasUmAux_cons_keep2 pw c _ h
        (by rw [htw2.1]; exact h2)
        (by rw [htw2.2, hout]; simpa [boundaryBlocked] using hwword), ← hrm]
      exact ih
  | case4 pw c rest h h2 h3 ih =>
    rw [removeUmAux_cons_match pw c rest h h2 h3]
    cases hdw : rest.dropWhile (fun x => decide (x = 109)) with
    | nil => rw [removeUmAux_nil, hasUmAux_nil]
    | cons w t =>
      have hw : isWordC w = false := by
        rw [hdw] at h3
        simpa [boundaryBlocked] using h3
      have hw117 : ¬w = 117 := by
        intro he
        subst he
        rw [show isWordC 117 = true from by decide] at hw
        cases hw
      rw [hdw, removeUmAux_true_cons, hasUmAux_cons_else true w _ (by simp), hw] at ih
      rw [removeUmAux_true_cons, hasUmAux_cons_else pw w _ (by simp [hw117]), hw]
      exact ih
  | case5 pw c rest h ih =>
    have h' : (decide (c = 117) && !pw) = false := by
      revert h
      cases (decide (c = 117) && !pw) <;> simp
    rw [removeUmAux_cons_else pw c rest h', hasUmAux_cons_else pw c _ h']
    exact ih

/-! #### hasUm is not created by space collapsing or trimming -/

theorem isSpaceC_ne_117 (a : Nat) (h : isSpaceC a = true) : ¬a = 117 := by
  simp only [isSpaceC, Bool.or_eq_true, decide_eq_true_eq] at h
  omega

theorem isSpaceC_not_word (a : Nat) (h : isSpaceC a = true) : isWordC a = false := by
  simp only [isSpaceC, Bool.or_eq_true, decide_eq_true_eq] at h
  rw [Bool.eq_false_iff]
  intro hw
  simp only [isWordC, isAlphaNumC, isLowerC, isUpperC, isDigitC, Bool.or_eq_true,
    Bool.and_eq_true, decide_eq_true_eq] at hw
  omega

theorem isWordC_not_space (w : Nat) (h : isWordC w = true) : isSpaceC w = false := by
  simp only [isWordC, isAlphaNumC, isLowerC, isUpperC, isDigitC, Bool.or_eq_true,
    Bool.and_eq_true, decide_eq_true_eq] at h
  rw [Bool.eq_false_iff]
  intro hs
  simp only [isSpaceC, Bool.or_eq_true, decide_eq_true_eq] at hs
  omega

theorem collapseSpaces_append_nonspace :
    ∀ (ms x : List Nat), (∀ a ∈ ms, isSpaceC a = false) →
      collapseSpaces (ms ++ x) = ms ++ collapseSpaces x := by
  intro ms
  induction ms with
  | nil => intro x _; rfl
  | cons m t ih =>
    intro x hms
    have hm : isSpaceC m = false := hms m (by simp)
    cases ht : t ++ x with
    | nil =>
      have h1 : t = [] := by cases t with | nil => rfl | cons a b => cases ht
      have h2 : x = [] := by
        rw [h1] at ht
        simpa using ht
      subst h1
      subst h2
      simp [collapseSpaces, hm]
    | cons y ys =>
      rw [List.cons_append, ht, collapseSpaces, if_neg (by simp [hm]), if_neg (by simp [hm]),
        ← ht, ih x (fun a ha => hms a (List.mem_cons_of_mem _ ha)), List.cons_append]

theorem hasUm_collapseSpaces :
    ∀ (l : List Nat) (pw : Bool), hasUmAux pw l = false →
      hasUmAux pw (collapseSpaces l) = false := by
  intro l
  induction l using collapseSpaces.induct with
  | case1 => intro pw h; exact h
  | case2 a => intro pw _; exact hasUmAux_singleton pw _
  | case3 a d rest h ih =>
    intro pw hum
    simp only [Bool.and_eq_true] at h
    have ha117 : ¬a = 117 := isSpaceC_ne_117 a h.1
    rw [hasUmAux_cons_else pw a _ (by simp [ha117]), isSpaceC_not_word a h.1] at hum
    rw [collapseSpaces, if_pos (by simp [h.1, h.2])]
    rw [hasUmAux_pw_irrel pw false _ ?hhead]
    · exact ih false hum
    case hhead =>
      intro z hz
      obtain ⟨tl, htl⟩ := collapseSpaces_cons rest d
      rw [htl] at hz
      cases hz
      rw [if_pos h.2]
      decide
  | case4 a d rest h ih =>
    intro pw hum
    rw [collapseSpaces, if_neg h]
    by_cases hsa : isSpaceC a = true
    · rw [if_pos hsa]
      have ha117 : ¬a = 117 := isSpaceC_ne_117 a hsa
      rw [hasUmAux_cons_else pw a _ (by simp [ha117]), isSpaceC_not_word a hsa] at hum
      rw [hasUmAux_cons_else pw 32 _ (by simp)]
      rw [show isWordC 32 = false from by decide]
      exact ih false hum
    · rw [if_neg hsa]
      by_cases hcond : (decide (a = 117) && !pw) = true
      · -- a = 117 at a word boundary
        by_cases htw : ((d :: rest).takeWhile (fun x => decide (x = 109))).isEmpty = true
        · -- no m follows: d ≠ 109
          have hd109 : ¬d = 109 := by
            intro he
            subst he
            rw [List.takeWhile_cons_of_pos (by simp)] at htw
            simp at htw
          rw [hasUmAux_cons_keep1 pw a _ hcond htw] at hum
          have htw2 : ((collapseSpaces (d :: rest)).takeWhile
              (fun x => decide (x = 109))).isEmpty = true := by
            obtain ⟨tl, htl⟩ := collapseSpaces_cons rest d
            rw [htl, List.takeWhile_cons_of_neg]
            · rfl
            · by_cases hsd : isSpaceC d = true
              · rw [if_pos hsd]; decide
              · rw [if_neg hsd]; simp [hd109]
          rw [hasUmAux_cons_keep1 pw a _ hcond htw2]
          exact ih true hum
        · -- an m-run follows: d = 109
          have hms : ∀ z ∈ (d :: rest).takeWhile (fun x => decide (x = 109)), z = 109 := by
            intro z hz
            simpa using List.mem_takeWhile_imp hz
          have hsplit := List.takeWhile_append_dropWhile
            (fun x => decide (x = 109)) (d :: rest)
          have hmsnosp : ∀ z ∈ (d :: rest).takeWhile (fun x => decide (x = 109)),
              isSpaceC z = false := by
            intro z hz
            rw [hms z hz]
            decide
          have hcs : collapseSpaces (d :: rest)
              = (d :: rest).takeWhile (fun x => decide (x = 109))
                ++ collapseSpaces ((d :: rest).dropWhile (fun x => decide (x = 109))) := by
            conv_lhs => rw [← hsplit]
            exact collapseSpaces_append_nonspace _ _ hmsnosp
          cases hdw : (d :: rest).dropWhile (fun x => decide (x = 109)) with
          | nil =>
            -- the whole tail is an m-run: the original had an um token
            rw [hasUmAux_cons_match pw a _ hcond htw (by rw [hdw]; decide)] at hum
            cases hum
          | cons w t =>
            have hw109 : ¬w = 109 := by
              have hh := head?_dropWhile (fun x => decide (x = 109)) (d :: rest)
              rw [hdw] at hh
              simpa using hh w rfl
            by_cases hbl : boundaryBlocked ((d :: rest).dropWhile
                (fun x => decide (x = 109))) = true
            · -- blocked in the original: also blocked after collapsing
              rw [hasUmAux_cons_keep2 pw a _ hcond htw hbl] at hum
              have hwword : isWordC w = true := by
                rw [hdw] at hbl
                simpa [boundaryBlocked] using hbl
              obtain ⟨tl, htl⟩ := collapseSpaces_cons t w
              have hcsh : collapseSpaces (w :: t)
                  = w :: tl := by
                rw [htl, if_neg (by simp [isWordC_not_space w hwword])]
              have htw2 := takeWhile_append_all (p := fun x => decide (x = 109))
                ((d :: rest).takeWhile (fun x => decide (x = 109)))
                (collapseSpaces (w :: t))
                (fun z hz => by simp [hms z hz])
                (by
                  rw [hcsh]
                  intro z hz
                  cases hz
                  simp [hw109])
              rw [hcs, hdw]
              rw [hasUmAux_cons_keep2 pw a _ hcond
                (by rw [htw2.1]; exact htw)
                (by rw [htw2.2, hcsh]; simpa [boundaryBlocked] using hwword)]
              rw [← hdw, ← hcs]
              exact ih true hum
            · -- an um token in the original: contradiction
              rw [hasUmAux_cons_match pw a _ hcond htw hbl] at hum
              cases hum
      · -- not a boundary u: both scans step over `a`
        have hcond' : (decide (a = 117) && !pw) = false := by
          revert hcond
          cases (decide (a = 117) && !pw) <;> simp
        rw [hasUmAux_cons_else pw a _ hcond'] at hum
        rw [hasUmAux_cons_else pw a _ hcond']
        exact ih (isWordC a) hum

theorem hasUm_trimLeft (l : List Nat) (h : hasUmAux false l = false) :
    hasUmAux false (trimLeft l) = false := by
  induction l with
  | nil => exact h
  | cons c rest ih =>
    by_cases hsc : isSpaceC c = true
    · unfold trimLeft at ih ⊢
      rw [List.dropWhile_cons_of_pos (by simp [hsc])]
      rw [hasUmAux_cons_else false c rest (by simp [isSpaceC_ne_117 c hsc]),
        isSpaceC_not_word c hsc] at h
      exact ih h
    · unfold trimLeft
      rw [List.dropWhile_cons_of_neg (by simp [hsc])]
      exact h

theorem isSpaceC_ne_109 (a : Nat) (h : isSpaceC a = true) : ¬a = 109 := by
  simp only [isSpaceC, Bool.or_eq_true, decide_eq_true_eq] at h
  omega

theorem boundaryBlocked_spaces (s : List Nat) (hs : ∀ c ∈ s, isSpaceC c = true) :
    boundaryBlocked s = false := by
  cases s with
  | nil => rfl
  | cons s0 st => simp [boundaryBlocked, isSpaceC_not_word s0 (hs s0 (by simp))]

theorem head_spaces_not_109 (s : List Nat) (hs : ∀ c ∈ s, isSpaceC c = true) :
    ∀ z ∈ s.head?, (decide (z = 109) : Bool) = false := by
  cases s with
  | nil => intro z hz; cases hz
  | cons s0 st =>
    intro z hz
    cases hz
    simp [isSpaceC_ne_109 s0 (hs s0 (by simp))]

theorem hasUm_append_spaces :
    ∀ (l s : List Nat), (∀ c ∈ s, isSpaceC c = true) →
      ∀ pw, hasUmAux pw (l ++ s) = false → hasUmAux pw l = false := by
  intro l s hs
  induction l with
  | nil => intro pw _; rw [hasUmAux_nil]
  | cons c rest ih =>
    intro pw h
    rw [List.cons_append] at h
    by_cases hcond : (decide (c = 117) && !pw) = true
    case neg =>
      have hcond' : (decide (c = 117) && !pw) = false := by
        revert hcond
        cases (decide (c = 117) && !pw) <;> simp
      rw [hasUmAux_cons_else pw c _ hcond'] at h
      rw [hasUmAux_cons_else pw c _ hcond']
      exact ih (isWordC c) h
    case pos =>
      by_cases htw : (rest.takeWhile (fun x => decide (x = 109))).isEmpty = true
      case pos =>
        have htws : ((rest ++ s).takeWhile (fun x => decide (x = 109))).isEmpty = true := by
          cases rest with
          | nil =>
            rw [List.nil_append]
            cases hsn : s with
            | nil => rfl
            | cons s0 st =>
              rw [List.takeWhile_cons_of_neg]
              · rfl
              · have : isSpaceC s0 = true := by
                  rw [hsn] at hs
                  exact hs s0 (by simp)
                simp [isSpaceC_ne_109 s0 this]
          | cons r0 rr =>
            have hr109 : ¬r0 = 109 := by
              intro he
              rw [he, List.takeWhile_cons_of_pos (by simp)] at htw
              simp at htw
            rw [List.cons_append, List.takeWhile_cons_of_neg (by simp [hr109])]
            rfl
        rw [hasUmAux_cons_keep1 pw c _ hcond htws] at h
        rw [hasUmAux_cons_keep1 pw c _ hcond htw]
        exact ih true h
      case neg =>
        have hms : ∀ z ∈ rest.takeWhile (fun x => decide (x = 109)), z = 109 := by
          intro z hz
          simpa using List.mem_takeWhile_imp hz
        have hsplit := List.takeWhile_append_dropWhile (fun x => decide (x = 109)) rest
        cases hdw : rest.dropWhile (fun x => decide (x = 109)) with
        | nil =>
          have hresteq : rest = rest.takeWhile (fun x => decide (x = 109)) := by
            conv_lhs => rw [← hsplit, hdw]
            rw [List.append_nil]
          have htws := takeWhile_append_all (p := fun x => decide (x = 109))
            (rest.takeWhile (fun x => decide (x = 109))) s
            (fun z hz => by simp [hms z hz])
            (head_spaces_not_109 s hs)
          conv at h => rw [show rest ++ s
            = rest.takeWhile (fun x => decide (x = 109)) ++ s from by
              conv_lhs => rw [hresteq]]
          rw [hasUmAux_cons_match pw c _ hcond
            (by rw [htws.1]; exact htw)
            (by rw [htws.2, boundaryBlocked_spaces s hs]; simp)] at h
          cases h
        | cons w t =>
          have hw109 : ¬w = 109 := by
            have hh := head?_dropWhile (fun x => decide (x = 109)) rest
            rw [hdw] at hh
            simpa using hh w rfl
          have htws := takeWhile_append_all (p := fun x => decide (x = 109))
            (rest.takeWhile (fun x => decide (x = 109))) ((w :: t) ++ s)
            (fun z hz => by simp [hms z hz])
            (by
              intro z hz
              cases hz
              simp [hw109])
          have hrs : rest ++ s
              = rest.takeWhile (fun x => decide (x = 109)) ++ ((w :: t) ++ s) := by
            conv_lhs => rw [← hsplit, hdw]
            rw [List.append_assoc]
          by_cases hbl : boundaryBlocked (rest.dropWhile (fun x => decide (x = 109)))
              = true
          · rw [hrs] at h
            rw [hasUmAux_cons_keep2 pw c _ hcond
              (by rw [htws.1]; exact htw)
              (by
                rw [htws.2]
                rw [hdw] at hbl
                simpa [boundaryBlocked] using hbl)] at h
            rw [← hrs] at h
            rw [hasUmAux_cons_keep2 pw c _ hcond htw hbl]
            exact ih true h
          · rw [hrs] at h
            rw [hasUmAux_cons_match pw c _ hcond
              (by rw [htws.1]; exact htw)
              (by
                rw [htws.2]
                rw [hdw] at hbl
                simpa [boundaryBlocked] using hbl)] at h
            cases h

theorem hasUm_trimJS (l : List Nat) (h : hasUmAux false l = false) :
    hasUmAux false (trimJS l) = false := by
  unfold trimJS
  have h1 : hasUmAux false (trimLeft l) = false := hasUm_trimLeft l h
  set y := trimLeft l with hy
  have hsplit := List.takeWhile_append_dropWhile (fun c => isSpaceC c) y.reverse
  have hydec : y = trimRight y ++ (y.reverse.takeWhile (fun c => isSpaceC c)).reverse := by
    unfold trimRight
    conv_lhs => rw [← List.reverse_reverse y, ← hsplit]
    rw [List.reverse_append]
  refine hasUm_append_spaces (trimRight y)
    ((y.reverse.takeWhile (fun c => isSpaceC c)).reverse) ?_ false ?_
  · intro c hc
    rw [List.mem_reverse] at hc
    simpa using List.mem_takeWhile_imp hc
  · rw [← hydec]
    exact h1

/-- Every `deobfuscate` output is normalized. -/
theorem deobfuscate_normalized (l : List Nat) : IsNormalized (deobfuscate l) := by
  show IsNormalized (trimJS (collapseSpaces (removeUmAux false
    (collapseRepeats (trimJS (toLowerStr (collapseSpaces (step1 l))))))))
  set u := toLowerStr (collapseSpaces (step1 l)) with hu
  set w := collapseRepeats (trimJS u) with hw
  set x := removeUmAux false w with hx
  constructor
  · intro c hc
    have hc1 := trimJS_mem _ c hc
    rcases collapseSpaces_mem _ c hc1 with h32 | ⟨hm, -⟩
    · rw [h32]
      decide
    · rw [hx] at hm
      have hm2 := removeUmAux_mem false w c hm
      rw [hw] at hm2
      have hm3 := collapseRepeats_mem _ c hm2
      have hm4 := trimJS_mem u c hm3
      rw [hu] at hm4
      obtain ⟨a, ha, rfl⟩ := List.mem_map.mp hm4
      rcases collapseSpaces_mem _ a ha with ha32 | ⟨ham, hasp⟩
      · rw [ha32]
        decide
      · exact toLowerC_nfChar a (step1_mem l a ham)
          (fun hsp => by rw [hsp] at hasp; cases hasp)
  · exact trimJS_chain (fun a b hab => Rsp_symm hab) _ (collapseSpaces_chain_sp _)
  · exact trimJS_headOk _
  · exact trimJS_lastOk _
  · refine trimJS_chain (fun a b hab => Rrep_symm hab) _ ?_
    refine collapseSpaces_chain_rep _ ?_
    rw [hx]
    exact removeUmAux_chain_rep false w (hw ▸ collapseRepeats_chain_rep _)
  · refine hasUm_trimJS _ ?_
    refine hasUm_collapseSpaces _ false ?_
    rw [hx]
    exact removeUmAux_no_um false w

/-- C9: the challenge normalization is idempotent — `deobfuscate` applied to
an already-normalized string (any of its own outputs) returns it unchanged. -/
theorem c9_deobfuscate_idempotent (l : List Nat) :
    deobfuscate (deobfuscate l) = deobfuscate l :=
  deobfuscate_fixed (deobfuscate l) (deobfuscate_normalized l)

end Mint
